import Mathlib

/-!
Verification of the numeral-base conversion engine of the bhaskara repository.

The embedding follows the two implementations cited by the claims:

* `conversion_numerica.py` — the standalone engine.  Its functions are
  embedded under their Spanish source names (`limpiar_numero`,
  `valor_simbolo`, `a_decimal_fraction`, `desde_decimal_fraction`,
  `bin_to_base_direct`, `base_to_bin_direct`, `convertir`, …).
* `backend/app/services/number_conversion.py` — the backend port, embedded
  in the `Backend` namespace.

Modelling conventions:

* Python strings are `List Char`; Python `Fraction` is `ℚ`; Python ints that
  stay non-negative in the source are `ℕ`.
* A Python `raise` is an `Except.error` carrying the error kind of the raise
  site (the spec's names: `InvalidBase`, `InvalidDigit` = `invalidSymbol`,
  `DigitOutOfRange`, …).
* Python `//` on a `Fraction`'s numerator/denominator is floor division; the
  denominator of a `Fraction` is always positive, so it is `Int.fdiv`.
* `while` loops over a decreasing numeric quantity are written with an
  explicit structural fuel that provably dominates the number of iterations
  (`divDigitsGo` with fuel `n`, `chunkGo` with fuel `l.length`); the
  fractional-expansion loop of the source is already bounded by `precision`.
-/

/-- Error kinds of the standalone engine (raise sites of `conversion_numerica.py`). -/
inductive Err where
  | invalidBase : Err
  | invalidSymbol : Char → Err
  | valueOutOfRange : ℕ → Err
  | digitOutOfRange : Char → ℕ → Err
  | invalidBinary : Err
deriving DecidableEq, Repr

instance {ε α : Type} [DecidableEq ε] [DecidableEq α] : DecidableEq (Except ε α) := fun x y =>
  match x, y with
  | .ok a, .ok b =>
    if h : a = b then .isTrue (by rw [h]) else .isFalse (by intro hc; cases hc; exact h rfl)
  | .ok _, .error _ => .isFalse (by intro hc; cases hc)
  | .error _, .ok _ => .isFalse (by intro hc; cases hc)
  | .error e, .error f =>
    if h : e = f then .isTrue (by rw [h]) else .isFalse (by intro hc; cases hc; exact h rfl)

/-- `SYMBOLS = "0123456789ABCDEF"`. -/
def SYMBOLS : List Char :=
  ['0', '1', '2', '3', '4', '5', '6', '7', '8', '9', 'A', 'B', 'C', 'D', 'E', 'F']

/-- `valor_simbolo`: dictionary lookup `SYMBOL_TO_VAL[ch]` (the 16 entries of
the symbol table), `ValueError` when absent. -/
def valor_simbolo (c : Char) : Except Err ℕ :=
  match c with
  | '0' => .ok 0 | '1' => .ok 1 | '2' => .ok 2 | '3' => .ok 3
  | '4' => .ok 4 | '5' => .ok 5 | '6' => .ok 6 | '7' => .ok 7
  | '8' => .ok 8 | '9' => .ok 9 | 'A' => .ok 10 | 'B' => .ok 11
  | 'C' => .ok 12 | 'D' => .ok 13 | 'E' => .ok 14 | 'F' => .ok 15
  | _ => .error (.invalidSymbol c)

/-- `simbolo_valor`: `SYMBOLS[v]` guarded by `0 <= v < len(SYMBOLS)`. -/
def simbolo_valor (v : ℕ) : Except Err Char :=
  if h : v < SYMBOLS.length then .ok (SYMBOLS.get ⟨v, h⟩) else .error (.valueOutOfRange v)

/-- Proof-side total version of `simbolo_valor`, agreeing with it for `v < 16`. -/
def simboloP (v : ℕ) : Char := SYMBOLS.getD v '0'

/-- The character normalization done by `limpiar_numero`'s `.replace(",", ".")`. -/
def replComma (c : Char) : Char := if c = ',' then '.' else c

/-- Both-ends whitespace strip, as Python `str.strip()`. -/
def pystrip (l : List Char) : List Char :=
  ((l.dropWhile Char.isWhitespace).reverse.dropWhile Char.isWhitespace).reverse

/-- `limpiar_numero`: `s.strip().upper().replace(",", ".")`. -/
def limpiar_numero (l : List Char) : List Char :=
  ((pystrip l).map Char.toUpper).map replComma

/-- `validar_base`: reject bases outside `[2, 16]`. -/
def validar_base (b : ℕ) : Except Err Unit :=
  if 2 ≤ b ∧ b ≤ 16 then .ok () else .error .invalidBase

/-- `separar_partes`: split on the first `'.'` (Python `num.split(".", 1)`). -/
def separar_partes (num : List Char) : List Char × List Char :=
  if '.' ∈ num then (num.takeWhile (· ≠ '.'), (num.dropWhile (· ≠ '.')).tail)
  else (num, [])

/-- Fuel-driven chunking: `[bits[i:i+tam] for i in range(0, len(bits), tam)]`.
The fuel `l.length` dominates the number of slices for `t ≥ 1`. -/
def chunkGo {α : Type} (t : ℕ) : ℕ → List α → List (List α)
  | 0, _ => []
  | fuel + 1, l => if l.isEmpty then [] else l.take t :: chunkGo t fuel (l.drop t)

def chunk {α : Type} (t : ℕ) (l : List α) : List (List α) := chunkGo t l.length l

/-- `agrupar_binario`: zero-pad to a multiple of `tam` (left for the integer
part, right for the fractional part) and slice into blocks of `tam`. -/
def agrupar_binario (bits : List Char) (tam : ℕ) (izquierda : Bool) : List (List Char) :=
  if bits = [] then []
  else
    let r := bits.length % tam
    let bits' :=
      if r ≠ 0 then
        if izquierda then List.replicate (tam - r) '0' ++ bits
        else bits ++ List.replicate (tam - r) '0'
      else bits
    chunk tam bits'

/-- `int(g, 2)` on a pre-validated block of `'0'`/`'1'` characters. -/
def bitsVal (l : List Char) : ℕ :=
  l.foldl (fun a c => 2 * a + (if c = '1' then 1 else 0)) 0

/-- `rstrip("0")`. -/
def rstripZeros (l : List Char) : List Char :=
  (l.reverse.dropWhile (· = '0')).reverse

/-- `lstrip("0") or "0"`. -/
def lstripZerosOr0 (l : List Char) : List Char :=
  if l.dropWhile (· = '0') = [] then ['0'] else l.dropWhile (· = '0')

/-- Sequential monadic map over `Except` (the Python loops build their output
symbol by symbol, aborting at the first raise). -/
def mapME {ε α β : Type} (f : α → Except ε β) : List α → Except ε (List β)
  | [] => .ok []
  | a :: l => do
    let b ← f a
    let bs ← mapME f l
    pure (b :: bs)

/-- `bin_to_base_direct`: the binary → octal/hex bit-grouping fast path. -/
def bin_to_base_direct (num : List Char) (base_dest : ℕ) : Except Err (List Char) := do
  let tam := if base_dest = 8 then 3 else 4
  let (ent0, frac) := separar_partes num
  let ent := if ent0 = [] then ['0'] else ent0
  if (ent ++ frac).any (fun c => ¬(c = '0' ∨ c = '1')) then
    .error .invalidBinary
  else do
    let oe ← mapME (fun g => simbolo_valor (bitsVal g)) (agrupar_binario ent tam true)
    let out_ent := if oe = [] then ['0'] else oe
    let out_ent := lstripZerosOr0 out_ent
    let og ← mapME (fun g => simbolo_valor (bitsVal g)) (agrupar_binario frac tam false)
    pure (if og = [] then out_ent
          else if rstripZeros og = [] then out_ent
          else out_ent ++ '.' :: rstripZeros og)

/-- Binary digit character of a bit value. -/
def bitChar (d : ℕ) : Char := if d = 1 then '1' else '0'

/-- Fuel-driven successive division: the digits of `n` in base `b`,
least-significant first (`while ent > 0: digits.append(ent % b); ent //= b`).
The fuel `n` dominates the iteration count for `b ≥ 2`. -/
def divDigitsGo (b : ℕ) : ℕ → ℕ → List ℕ
  | 0, _ => []
  | fuel + 1, n => if n = 0 then [] else n % b :: divDigitsGo b fuel (n / b)

def divDigits (b n : ℕ) : List ℕ := divDigitsGo b n n

/-- Python `format(v, "b")`: the binary numeral of `v`, `"0"` for zero. -/
def natBits (v : ℕ) : List Char :=
  if v = 0 then ['0'] else ((divDigits 2 v).map bitChar).reverse

/-- Python `format(v, f"0{tam}b")`: binary, left zero-padded to width `tam`. -/
def toBitsPad (tam v : ℕ) : List Char :=
  List.replicate (tam - (natBits v).length) '0' ++ natBits v

/-- `dig_to_bits` inside `base_to_bin_direct`. -/
def dig_to_bits (tam : ℕ) (c : Char) : Except Err (List Char) := do
  let v ← valor_simbolo c
  pure (toBitsPad tam v)

/-- The per-character validation loop of `base_to_bin_direct`
(`if ch and ch != "."` skips separator characters). -/
def validar_digitos (base_src : ℕ) : List Char → Except Err Unit
  | [] => .ok ()
  | c :: r =>
    if c = '.' then validar_digitos base_src r
    else do
      let v ← valor_simbolo c
      if v ≥ base_src then .error (.digitOutOfRange c base_src)
      else validar_digitos base_src r

/-- `base_to_bin_direct`: the octal/hex → binary bit-expansion fast path.
(`mapa = {8:3, 16:4}`; the function is only reached with `base_src ∈ {8,16}`.) -/
def base_to_bin_direct (num : List Char) (base_src : ℕ) : Except Err (List Char) := do
  let tam := if base_src = 8 then 3 else 4
  let (ent, frac) := separar_partes num
  validar_digitos base_src (ent ++ frac)
  let oe ← mapME (dig_to_bits tam) ent
  let out_ent := oe.flatten
  let out_ent := if out_ent = [] then ['0'] else out_ent
  let out_ent := lstripZerosOr0 out_ent
  let og ← mapME (dig_to_bits tam) frac
  let out_frac := og.flatten
  pure (if out_frac = [] then out_ent
        else if rstripZeros out_frac = [] then out_ent
        else out_ent ++ '.' :: rstripZeros out_frac)

/-- One digit of the general parse: symbol lookup then range check against the
source base, with the source's error kinds in the source's order. -/
def charDigit (b : ℕ) (c : Char) : Except Err ℕ := do
  let v ← valor_simbolo c
  if v ≥ b then .error (.digitOutOfRange c b) else pure v

/-- The integer-part accumulation loop of `a_decimal_fraction`
(`for ch in reversed(ent): … val_ent += v * pot; pot *= base`).
`lr` is the reversed integer part. -/
def entLoop (b : ℕ) : List Char → ℕ → ℕ → Except Err ℕ
  | [], val, _ => .ok val
  | c :: r, val, pot => do
    let v ← charDigit b c
    entLoop b r (val + v * pot) (pot * b)

/-- The fractional-part accumulation loop of `a_decimal_fraction`
(`val_frac += Fraction(v, pot_neg); pot_neg *= base`). -/
def fracLoop (b : ℕ) : List Char → ℚ → ℕ → Except Err ℚ
  | [], val, _ => .ok val
  | c :: r, val, pot => do
    let v ← charDigit b c
    fracLoop b r (val + (v : ℚ) / (pot : ℚ)) (pot * b)

/-- `a_decimal_fraction`: source base → exact rational value. -/
def a_decimal_fraction (num : List Char) (base_src : ℕ) : Except Err ℚ := do
  let num := limpiar_numero num
  let (ent, frac) := separar_partes num
  let val_ent ← entLoop base_src ent.reverse 0 1
  let val_frac ← fracLoop base_src frac 0 base_src
  pure ((val_ent : ℚ) + val_frac)

/-- Python `fr.numerator // fr.denominator` on a `Fraction` (positive
denominator): floor division, i.e. `Int.fdiv`. -/
def pyfloor (q : ℚ) : ℤ := Int.fdiv q.num q.den

/-- The fractional-expansion loop of `desde_decimal_fraction`
(`while fr != 0 and count < precision: fr *= b; d = floor(fr); …; fr -= d`).
Returns the emitted digit values and the remaining fraction. -/
def fracExpand (b : ℕ) : ℕ → ℚ → List ℕ × ℚ
  | 0, fr => ([], fr)
  | p + 1, fr =>
    if fr = 0 then ([], fr)
    else
      let fr' := fr * (b : ℚ)
      let d := pyfloor fr'
      let rest := fracExpand b p (fr' - (d : ℚ))
      (d.toNat :: rest.1, rest.2)

/-- `desde_decimal_fraction`: exact rational value → target-base numeral.
The digit of a negative `ent` loop index cannot occur (`ent.toNat = 0` exactly
when the Python `while ent > 0` loop body never runs), and every emitted
fractional digit value is the non-negative `⌊fr*b⌋` because `fr ∈ [0,1)`. -/
def desde_decimal_fraction (value : ℚ) (base_dest : ℕ) (precision : ℕ) :
    Except Err (List Char) := do
  let ent : ℤ := pyfloor value
  let fr : ℚ := value - (ent : ℚ)
  let out_ent ←
    if ent = 0 then pure ['0']
    else do
      let ds ← mapME simbolo_valor (divDigits base_dest ent.toNat)
      pure ds.reverse
  let out_frac ← mapME simbolo_valor (fracExpand base_dest precision fr).1
  pure (if out_frac = [] then out_ent else out_ent ++ '.' :: out_frac)

/-- `convertir`: the orchestrator. -/
def convertir (numero : List Char) (base_origen base_destino : ℕ) (precision : ℕ) :
    Except Err (List Char) := do
  validar_base base_origen
  validar_base base_destino
  let numero := limpiar_numero numero
  if base_origen = 2 ∧ (base_destino = 8 ∨ base_destino = 16) then
    bin_to_base_direct numero base_destino
  else if base_destino = 2 ∧ (base_origen = 8 ∨ base_origen = 16) then
    base_to_bin_direct numero base_origen
  else do
    let dec ← a_decimal_fraction numero base_origen
    desde_decimal_fraction dec base_destino precision

/-- The general decimal-intermediate path by itself, as dispatched by the
`else` branch of `convertir` (the spec's `general_decimal_intermediate`). -/
def general_decimal_intermediate (numero : List Char) (base_origen base_destino : ℕ)
    (precision : ℕ) : Except Err (List Char) := do
  let dec ← a_decimal_fraction (limpiar_numero numero) base_origen
  desde_decimal_fraction dec base_destino precision

namespace Backend

/-- Raise sites of `NumberConversionService` (all surfaced as
`BusinessLogicException` in the source; the kind records the raise site). -/
inductive BErr where
  | invalidBase : BErr
  | invalidSymbol : Char → BErr
  | valueOutOfRange : ℤ → BErr
  | invalidIntLiteral : List Char → BErr
  | unsupportedDirect : ℕ → BErr
deriving DecidableEq, Repr

/-- `_clean_number` (identical to the standalone `limpiar_numero`). -/
def _clean_number (l : List Char) : List Char := limpiar_numero l

/-- `_validate_base`. -/
def _validate_base (b : ℕ) : Except BErr Unit :=
  if 2 ≤ b ∧ b ≤ 16 then .ok () else .error .invalidBase

/-- `_symbol_value`: symbol-table lookup only (same dictionary as the
standalone `valor_simbolo`).  Note: despite its error message, it performs no
check of the value against any base. -/
def _symbol_value (c : Char) : Except BErr ℕ :=
  match valor_simbolo c with
  | .ok v => .ok v
  | .error _ => .error (.invalidSymbol c)

/-- `_value_symbol`: `SYMBOLS[val]` guarded by `0 <= val <= 15`.  The value is
an `ℤ` because the fractional loop of `_from_decimal_fraction` feeds it
`int(temp_frac)`. -/
def _value_symbol (val : ℤ) : Except BErr Char :=
  if 0 ≤ val ∧ val ≤ 15 then .ok (SYMBOLS.getD val.toNat '0') else .error (.valueOutOfRange val)

/-- `_separate_parts` (identical to the standalone `separar_partes`). -/
def _separate_parts (numero : List Char) : List Char × List Char := separar_partes numero

/-- `_group_binary`: left zero-pad to a multiple of `group_size`, then slice.
Unlike the standalone `agrupar_binario` it is applied to the whole numeral
(separator included) and never pads on the right. -/
def _group_binary (bin_str : List Char) (group_size : ℕ) : List (List Char) :=
  let padding := (group_size - bin_str.length % group_size) % group_size
  chunk group_size (List.replicate padding '0' ++ bin_str)

/-- Python `int(g, 2)`: succeeds on a non-empty all-`'0'`/`'1'` string,
raises `ValueError` otherwise (in particular on a `'.'`). -/
def pyIntBin (g : List Char) : Except BErr ℕ :=
  if g ≠ [] ∧ g.all (fun c => c = '0' ∨ c = '1') then .ok (bitsVal g)
  else .error (.invalidIntLiteral g)

/-- `_bin_to_base_direct`: grouping of the raw numeral, no separator split and
no prior digit validation. -/
def _bin_to_base_direct (bin_str : List Char) (target_base : ℕ) : Except BErr (List Char) := do
  if target_base = 8 then do
    let cs ← mapME (fun g => do
      let v ← pyIntBin g
      _value_symbol (v : ℤ)) (_group_binary bin_str 3)
    pure (lstripZerosOr0 cs)
  else if target_base = 16 then do
    let cs ← mapME (fun g => do
      let v ← pyIntBin g
      _value_symbol (v : ℤ)) (_group_binary bin_str 4)
    pure (lstripZerosOr0 cs)
  else .error (.unsupportedDirect target_base)

/-- `_base_to_bin_direct`: per-character bit expansion of the raw numeral
(no separator split, no check of the digit value against the base). -/
def _base_to_bin_direct (numero : List Char) (source_base : ℕ) : Except BErr (List Char) := do
  if source_base = 8 then do
    let bs ← mapME (fun c => do
      let v ← _symbol_value c
      pure (toBitsPad 3 v)) numero
    pure (lstripZerosOr0 bs.flatten)
  else if source_base = 16 then do
    let bs ← mapME (fun c => do
      let v ← _symbol_value c
      pure (toBitsPad 4 v)) numero
    pure (lstripZerosOr0 bs.flatten)
  else .error (.unsupportedDirect source_base)

/-- The integer accumulation loop of `_to_decimal_fraction`
(`decimal_int += self._symbol_value(ch) * (base ** i)` over the reversed
integer part).  No digit-below-base check is performed. -/
def _intLoop (b : ℕ) : List Char → ℕ → ℕ → Except BErr ℕ
  | [], acc, _ => .ok acc
  | c :: r, acc, i => do
    let v ← _symbol_value c
    _intLoop b r (acc + v * b ^ i) (i + 1)

/-- The fractional accumulation loop of `_to_decimal_fraction`
(`decimal_frac += Fraction(self._symbol_value(ch), base ** (i + 1))`). -/
def _fracLoop (b : ℕ) : List Char → ℚ → ℕ → Except BErr ℚ
  | [], acc, _ => .ok acc
  | c :: r, acc, i => do
    let v ← _symbol_value c
    _fracLoop b r (acc + (v : ℚ) / ((b : ℚ) ^ (i + 1))) (i + 1)

/-- `_to_decimal_fraction`. -/
def _to_decimal_fraction (numero : List Char) (base : ℕ) : Except BErr ℚ := do
  let (pe, pf) := _separate_parts numero
  let decimal_int ← _intLoop base pe.reverse 0 0
  let decimal_frac ← _fracLoop base pf 0 0
  pure ((decimal_int : ℚ) + decimal_frac)

/-- Python `int()` on a `Fraction`: truncation toward zero (`Int.tdiv`). -/
def pytrunc (q : ℚ) : ℤ := Int.tdiv q.num q.den

/-- The fractional loop of `_from_decimal_fraction`
(`for _ in range(precision): if temp_frac == 0: break; …`). -/
def _fromFrac (b : ℕ) : ℕ → ℚ → List ℤ × ℚ
  | 0, fr => ([], fr)
  | p + 1, fr =>
    if fr = 0 then ([], fr)
    else
      let fr' := fr * (b : ℚ)
      let d := pytrunc fr'
      let rest := _fromFrac b p (fr' - (d : ℚ))
      (d :: rest.1, rest.2)

/-- `_from_decimal_fraction`.  Note the dangling-separator formatting: the
`if frac_result` guard tests the digits *before* `rstrip('0')`. -/
def _from_decimal_fraction (decimal : ℚ) (target_base : ℕ) (precision : ℕ) :
    Except BErr (List Char) := do
  let int_part : ℤ := pytrunc decimal
  let int_result ←
    if int_part = 0 then pure ['0']
    else do
      let ds ← mapME (fun (d : ℕ) => _value_symbol (d : ℤ)) (divDigits target_base int_part.toNat)
      pure ds.reverse
  let frac_part := decimal - (int_part : ℚ)
  if frac_part = 0 then pure int_result
  else do
    let frac_result ← mapME _value_symbol (_fromFrac target_base precision frac_part).1
    pure (if frac_result = [] then int_result
          else int_result ++ '.' :: rstripZeros frac_result)

/-- `_convert`: the backend orchestrator (string-level behaviour of
`convert_number` after its raw non-emptiness check). -/
def _convert (numero : List Char) (base_origen base_destino : ℕ) (precision : ℕ) :
    Except BErr (List Char) := do
  _validate_base base_origen
  _validate_base base_destino
  let numero := _clean_number numero
  if base_origen = 2 ∧ (base_destino = 8 ∨ base_destino = 16) then
    _bin_to_base_direct numero base_destino
  else if base_destino = 2 ∧ (base_origen = 8 ∨ base_origen = 16) then
    _base_to_bin_direct numero base_origen
  else do
    let dec ← _to_decimal_fraction numero base_origen
    _from_decimal_fraction dec base_destino precision

end Backend

/-- Value of a list of fractional digit values `[d_0, d_1, …]` in base `b`:
`Σ_j d_j / b^(j+1)`, in Horner form. -/
def fracVal (b : ℕ) (ds : List ℕ) : ℚ :=
  ds.foldr (fun d acc => ((d : ℚ) + acc) / (b : ℚ)) 0

/-- Drop trailing zero digit values. -/
def dropTrailZerosN (ds : List ℕ) : List ℕ :=
  (ds.reverse.dropWhile (· = 0)).reverse

/-- The spec's integer positional sum: `Σ digitValue(d_i) * base^i` with `i`
counted from the right of the integer digit-value list `es` (MSB first). -/
def specIntSum (b : ℕ) (es : List ℕ) : ℚ :=
  ∑ i ∈ Finset.range es.length, (es.reverse.getD i 0 : ℚ) * (b : ℚ) ^ i

/-- The spec's fractional positional sum: `Σ digitValue(d_j) * base^(-(j+1))`
with `j` counted from the left of the fractional digit-value list `fs`. -/
def specFracSum (b : ℕ) (fs : List ℕ) : ℚ :=
  ∑ j ∈ Finset.range fs.length, (fs.getD j 0 : ℚ) / (b : ℚ) ^ (j + 1)

/-- Trailing-zero normalization of a numeral, from the claims' words: strip
leading zeros of the integer part (keeping at least one digit) and trailing
zeros of the fractional part (dropping the separator if nothing remains). -/
def normalizeZeros (l : List Char) : List Char :=
  let e := (separar_partes l).1
  let f := rstripZeros (separar_partes l).2
  if f = [] then lstripZerosOr0 e else lstripZerosOr0 e ++ '.' :: f

/-- The base pairs served by the bit-grouping fast path. -/
def eligiblePair (b1 b2 : ℕ) : Prop :=
  (b1 = 2 ∧ (b2 = 8 ∨ b2 = 16)) ∨ (b2 = 2 ∧ (b1 = 8 ∨ b1 = 16))

/-- Precision sufficient for the general path to reach every fractional digit
the direct path emits, for a numeral with `flen` fractional digits. -/
def enoughPrec (b1 b2 flen p : ℕ) : Prop :=
  (b1 = 2 ∧ b2 = 8 ∧ flen ≤ 3 * p) ∨
  (b1 = 2 ∧ b2 = 16 ∧ flen ≤ 4 * p) ∨
  (b1 = 8 ∧ b2 = 2 ∧ 3 * flen ≤ p) ∨
  (b1 = 16 ∧ b2 = 2 ∧ 4 * flen ≤ p)

/-- The string produced by `desde_decimal_fraction` (proof-side closed form):
integer digits of `⌊v⌋` most-significant first (or `"0"`), then the emitted
fractional digits behind a separator when there are any. -/
def desdeRender (v : ℚ) (b p : ℕ) : List Char :=
  (if pyfloor v = 0 then ['0']
   else ((Nat.digits b (pyfloor v).toNat).map simboloP).reverse) ++
  (if (fracExpand b p (v - ((pyfloor v) : ℚ))).1 = [] then []
   else '.' :: ((fracExpand b p (v - ((pyfloor v) : ℚ))).1.map simboloP))

/-- Well-formedness of an output numeral for a base: at most one separator,
and every other character is a symbol whose digit value is below the base. -/
def WellFormedOutput (b : ℕ) (out : List Char) : Prop :=
  out.count '.' ≤ 1 ∧ ∀ c ∈ out, c ≠ '.' → ∃ w, valor_simbolo c = .ok w ∧ w < b

/-- The bit value of a binary digit character, as `int(ch, 2)` reads it. -/
def bitVal (c : Char) : ℕ := if c = '1' then 1 else 0

/-! ### Monadic plumbing -/

theorem except_bind_ok {ε α β : Type} (a : α) (f : α → Except ε β) :
    (Except.ok a >>= f) = f a := rfl

theorem except_bind_error {ε α β : Type} (e : ε) (f : α → Except ε β) :
    ((Except.error e : Except ε α) >>= f) = .error e := rfl

theorem except_pure_eq {ε α : Type} (a : α) : (pure a : Except ε α) = .ok a := rfl

theorem except_bindf_ok {ε α β : Type} (a : α) (f : α → Except ε β) :
    (Except.ok a).bind f = f a := rfl

theorem except_bindf_error {ε α β : Type} (e : ε) (f : α → Except ε β) :
    (Except.error e : Except ε α).bind f = .error e := rfl

theorem mapME_ok_of_forall {ε α β : Type} {f : α → Except ε β} {g : α → β} :
    ∀ {l : List α}, (∀ a ∈ l, f a = .ok (g a)) → mapME f l = .ok (l.map g)
  | [], _ => rfl
  | a :: l, h => by
    rw [mapME, h a (List.mem_cons_self a l), except_bind_ok,
      mapME_ok_of_forall (fun x hx => h x (List.mem_cons_of_mem a hx)), except_bind_ok]
    rfl

theorem mapME_ok_forall₂ {ε α β : Type} {f : α → Except ε β} :
    ∀ {l : List α} {out : List β}, mapME f l = .ok out →
      List.Forall₂ (fun a b => f a = .ok b) l out := by
  intro l
  induction l with
  | nil =>
    intro out h
    rw [mapME] at h
    cases h
    exact .nil
  | cons a l ih =>
    intro out h
    rw [mapME] at h
    cases hfa : f a with
    | error e => rw [hfa, except_bind_error] at h; cases h
    | ok b =>
      rw [hfa, except_bind_ok] at h
      cases hml : mapME f l with
      | error e => rw [hml, except_bind_error] at h; cases h
      | ok bs =>
        rw [hml, except_bind_ok] at h
        cases h
        exact .cons hfa (ih hml)

/-! ### Symbol-table lemmas -/

theorem simbolo_valor_eq_simboloP : ∀ v : ℕ, v < 16 → simbolo_valor v = .ok (simboloP v) := by
  decide

theorem valor_simboloP : ∀ v : ℕ, v < 16 → valor_simbolo (simboloP v) = .ok v := by
  decide

theorem simboloP_mem_SYMBOLS : ∀ v : ℕ, v < 16 → simboloP v ∈ SYMBOLS := by decide

theorem simboloP_ne_dot : ∀ v : ℕ, v < 16 → simboloP v ≠ '.' := by decide

theorem simboloP_eq_zero_iff : ∀ v : ℕ, v < 16 → (simboloP v = '0' ↔ v = 0) := by decide

theorem SYMBOLS_clean_chars : ∀ c ∈ SYMBOLS,
    Char.isWhitespace c = false ∧ Char.toUpper c = c ∧ c ≠ ',' := by decide

theorem dot_clean_char :
    Char.isWhitespace '.' = false ∧ Char.toUpper '.' = '.' ∧ ('.' : Char) ≠ ',' := by decide

theorem valor_simbolo_ok {c : Char} {v : ℕ} (h : valor_simbolo c = .ok v) :
    v < 16 ∧ simboloP v = c ∧ c ∈ SYMBOLS := by
  unfold valor_simbolo at h
  split at h <;> cases h <;> refine ⟨by norm_num, by decide, by decide⟩

theorem charDigit_ok {b : ℕ} {c : Char} {v : ℕ} (h : charDigit b c = .ok v) :
    valor_simbolo c = .ok v ∧ v < b := by
  unfold charDigit at h
  cases hv : valor_simbolo c with
  | error e => rw [hv, except_bind_error] at h; cases h
  | ok w =>
    rw [hv, except_bind_ok] at h
    by_cases hb : w ≥ b
    · rw [if_pos hb] at h; cases h
    · rw [if_neg hb, except_pure_eq] at h
      cases h
      exact ⟨rfl, by omega⟩

theorem charDigit_simboloP {b v : ℕ} (hb : b ≤ 16) (hv : v < b) :
    charDigit b (simboloP v) = .ok v := by
  have h16 : v < 16 := lt_of_lt_of_le hv hb
  unfold charDigit
  rw [valor_simboloP v h16, except_bind_ok, if_neg (by omega), except_pure_eq]

/-! ### Fractional value and floor lemmas -/

theorem fracVal_nil (b : ℕ) : fracVal b [] = 0 := rfl

theorem fracVal_cons (b d : ℕ) (ds : List ℕ) :
    fracVal b (d :: ds) = ((d : ℚ) + fracVal b ds) / (b : ℚ) := rfl

theorem fracVal_nonneg (b : ℕ) : ∀ ds : List ℕ, 0 ≤ fracVal b ds := by
  intro ds
  induction ds with
  | nil => simp [fracVal_nil]
  | cons d ds ih =>
    rw [fracVal_cons]
    positivity

theorem fracVal_lt_one (b : ℕ) (hb : 1 ≤ b) :
    ∀ ds : List ℕ, (∀ d ∈ ds, d < b) → fracVal b ds < 1 := by
  intro ds
  induction ds with
  | nil => simp [fracVal_nil]
  | cons d ds ih =>
    intro hlt
    rw [fracVal_cons]
    have hd : d < b := hlt d (List.mem_cons_self d ds)
    have hF : fracVal b ds < 1 := ih (fun x hx => hlt x (List.mem_cons_of_mem d hx))
    have hb0 : (0 : ℚ) < (b : ℚ) := by exact_mod_cast Nat.pos_of_ne_zero (by omega)
    rw [div_lt_one hb0]
    have : (d : ℚ) ≤ (b : ℚ) - 1 := by exact_mod_cast Nat.le_sub_one_of_lt hd
    linarith

theorem fracVal_eq_zero_iff (b : ℕ) (hb : 1 ≤ b) :
    ∀ ds : List ℕ, (fracVal b ds = 0 ↔ ∀ d ∈ ds, d = 0) := by
  intro ds
  induction ds with
  | nil => simp [fracVal_nil]
  | cons d ds ih =>
    rw [fracVal_cons]
    have hb0 : (b : ℚ) ≠ 0 := by exact_mod_cast (by omega : b ≠ 0)
    rw [div_eq_zero_iff, or_iff_left hb0,
      add_eq_zero_iff_of_nonneg (by positivity) (fracVal_nonneg b ds)]
    simp only [Nat.cast_eq_zero, ih, List.mem_cons]
    constructor
    · rintro ⟨h1, h2⟩ x (rfl | hx)
      · exact h1
      · exact h2 x hx
    · intro h
      exact ⟨h d (Or.inl rfl), fun x hx => h x (Or.inr hx)⟩

theorem fracVal_append (b : ℕ) (hb : 0 < b) :
    ∀ xs ys : List ℕ,
      fracVal b (xs ++ ys) = fracVal b xs + fracVal b ys / (b : ℚ) ^ xs.length := by
  intro xs ys
  induction xs with
  | nil => simp [fracVal_nil]
  | cons d xs ih =>
    rw [List.cons_append, fracVal_cons, fracVal_cons, ih]
    have hb0 : (b : ℚ) ≠ 0 := by exact_mod_cast hb.ne'
    rw [List.length_cons]
    field_simp
    ring

theorem pyfloor_eq_floor (q : ℚ) : pyfloor q = ⌊q⌋ := by
  rw [Rat.floor_def, pyfloor, Int.fdiv_eq_ediv _ (by positivity)]

theorem pyfloor_add_int (n : ℤ) (x : ℚ) (h0 : 0 ≤ x) (h1 : x < 1) :
    pyfloor ((n : ℚ) + x) = n := by
  rw [pyfloor_eq_floor]
  apply Int.floor_eq_iff.mpr
  constructor
  · linarith
  · push_cast
    linarith


theorem pyfloor_natCast (n : ℕ) : pyfloor (n : ℚ) = n := by
  have := pyfloor_add_int (n : ℤ) 0 le_rfl one_pos
  simpa using this

theorem pyfloor_zero : pyfloor 0 = 0 := by
  simpa using pyfloor_natCast 0

/-! ### Characterization of the parse loops -/

theorem entLoop_eq (b : ℕ) :
    ∀ (l : List Char) (val pot : ℕ),
      entLoop b l val pot =
        (mapME (charDigit b) l).map (fun ds => val + pot * Nat.ofDigits b ds) := by
  intro l
  induction l with
  | nil =>
    intro val pot
    simp [entLoop, mapME, Except.map, Nat.ofDigits_nil]
  | cons c r ih =>
    intro val pot
    rw [entLoop, mapME]
    cases hc : charDigit b c with
    | error e => rw [except_bind_error, except_bind_error]; rfl
    | ok v =>
      rw [except_bind_ok, except_bind_ok, ih]
      cases hm : mapME (charDigit b) r with
      | error e => rw [except_bind_error]; rfl
      | ok ds =>
        rw [except_bind_ok, except_pure_eq]
        simp only [Except.map, Nat.ofDigits_cons]
        congr 1
        push_cast
        ring

theorem fracLoop_eq (b : ℕ) (hb : 0 < b) :
    ∀ (l : List Char) (val : ℚ) (pot : ℕ), 0 < pot →
      fracLoop b l val pot =
        (mapME (charDigit b) l).map (fun ds => val + (b : ℚ) / (pot : ℚ) * fracVal b ds) := by
  intro l
  induction l with
  | nil =>
    intro val pot _
    simp [fracLoop, mapME, Except.map, fracVal_nil]
  | cons c r ih =>
    intro val pot hpot
    rw [fracLoop, mapME]
    cases hc : charDigit b c with
    | error e => rw [except_bind_error, except_bind_error]; rfl
    | ok v =>
      rw [except_bind_ok, except_bind_ok, ih _ _ (Nat.mul_pos hpot hb)]
      cases hm : mapME (charDigit b) r with
      | error e => rw [except_bind_error]; rfl
      | ok ds =>
        rw [except_bind_ok, except_pure_eq]
        simp only [Except.map, fracVal_cons]
        congr 1
        have hb0 : (b : ℚ) ≠ 0 := by exact_mod_cast hb.ne'
        have hp0 : (pot : ℚ) ≠ 0 := by exact_mod_cast hpot.ne'
        push_cast
        field_simp
        ring

theorem a_decimal_eq (num : List Char) (b : ℕ) (hb : 0 < b) :
    a_decimal_fraction num b =
      (mapME (charDigit b) (separar_partes (limpiar_numero num)).1.reverse).bind fun es =>
        (mapME (charDigit b) (separar_partes (limpiar_numero num)).2).map fun fs =>
          ((Nat.ofDigits b es : ℕ) : ℚ) + fracVal b fs := by
  have hb0 : (b : ℚ) ≠ 0 := by exact_mod_cast hb.ne'
  rw [a_decimal_fraction]
  rcases hsp : separar_partes (limpiar_numero num) with ⟨ent, frac⟩
  simp only [hsp]
  rw [entLoop_eq, fracLoop_eq b hb _ _ _ hb]
  cases he : mapME (charDigit b) ent.reverse with
  | error e => rfl
  | ok es =>
    simp only [Except.map, except_bind_ok, Except.bind]
    cases hf : mapME (charDigit b) frac with
    | error e => rfl
    | ok fs =>
      simp only [except_bind_ok, except_pure_eq]
      congr 1
      rw [div_self hb0]
      ring

theorem a_decimal_ok {num : List Char} {b : ℕ} {v : ℚ} (hb : 0 < b)
    (h : a_decimal_fraction num b = .ok v) :
    ∃ es fs, mapME (charDigit b) (separar_partes (limpiar_numero num)).1.reverse = .ok es ∧
      mapME (charDigit b) (separar_partes (limpiar_numero num)).2 = .ok fs ∧
      v = ((Nat.ofDigits b es : ℕ) : ℚ) + fracVal b fs := by
  rw [a_decimal_eq num b hb] at h
  cases he : mapME (charDigit b) (separar_partes (limpiar_numero num)).1.reverse with
  | error e => rw [he] at h; cases h
  | ok es =>
    rw [he] at h
    simp only [Except.bind] at h
    cases hf : mapME (charDigit b) (separar_partes (limpiar_numero num)).2 with
    | error e => rw [hf] at h; cases h
    | ok fs =>
      rw [hf] at h
      simp only [Except.map] at h
      cases h
      exact ⟨es, fs, rfl, rfl, rfl⟩

theorem a_decimal_ok_of {num : List Char} {b : ℕ} {es fs : List ℕ} (hb : 0 < b)
    (he : mapME (charDigit b) (separar_partes (limpiar_numero num)).1.reverse = .ok es)
    (hf : mapME (charDigit b) (separar_partes (limpiar_numero num)).2 = .ok fs) :
    a_decimal_fraction num b = .ok (((Nat.ofDigits b es : ℕ) : ℚ) + fracVal b fs) := by
  rw [a_decimal_eq num b hb, he, hf]
  rfl

/-! ### Invariants of the fractional-expansion loop -/

theorem fracExpand_zero (b : ℕ) : ∀ p : ℕ, fracExpand b p 0 = ([], 0) := by
  intro p
  cases p with
  | zero => rfl
  | succ p => simp [fracExpand]

theorem fracExpand_spec (b : ℕ) (hb : 2 ≤ b) :
    ∀ (p : ℕ) (fr : ℚ), 0 ≤ fr → fr < 1 →
      (∀ d ∈ (fracExpand b p fr).1, d < b) ∧
      0 ≤ (fracExpand b p fr).2 ∧ (fracExpand b p fr).2 < 1 ∧
      (fracExpand b p fr).1.length ≤ p ∧
      fr = fracVal b (fracExpand b p fr).1 +
        (fracExpand b p fr).2 / (b : ℚ) ^ (fracExpand b p fr).1.length := by
  intro p
  induction p with
  | zero =>
    intro fr h0 h1
    refine ⟨by simp [fracExpand], h0, h1, by simp [fracExpand], ?_⟩
    simp [fracExpand, fracVal_nil]
  | succ p ih =>
    intro fr h0 h1
    by_cases hz : fr = 0
    · subst hz
      rw [fracExpand_zero]
      refine ⟨by simp, le_rfl, one_pos, by simp, by simp [fracVal_nil]⟩
    · have hb0 : (0 : ℚ) < (b : ℚ) := by exact_mod_cast (by omega : 0 < b)
      have hfr0 : 0 ≤ fr * (b : ℚ) := by positivity
      have hfrb : fr * (b : ℚ) < (b : ℚ) := by
        calc fr * (b : ℚ) < 1 * (b : ℚ) := by
              exact mul_lt_mul_of_pos_right h1 hb0
          _ = (b : ℚ) := one_mul _
      have hd0 : 0 ≤ pyfloor (fr * (b : ℚ)) := by
        rw [pyfloor_eq_floor]
        exact Int.floor_nonneg.mpr hfr0
      have hdb : pyfloor (fr * (b : ℚ)) < (b : ℤ) := by
        rw [pyfloor_eq_floor]
        exact Int.floor_lt.mpr (by exact_mod_cast hfrb)
      have hx0 : 0 ≤ fr * (b : ℚ) - ((pyfloor (fr * (b : ℚ))) : ℚ) := by
        rw [pyfloor_eq_floor]
        have := Int.floor_le (fr * (b : ℚ))
        linarith
      have hx1 : fr * (b : ℚ) - ((pyfloor (fr * (b : ℚ))) : ℚ) < 1 := by
        rw [pyfloor_eq_floor]
        have := Int.lt_floor_add_one (fr * (b : ℚ))
        linarith
      obtain ⟨ihd, ihr0, ihr1, ihlen, ihval⟩ := ih (fr * (b : ℚ) - ((pyfloor (fr * (b : ℚ))) : ℚ)) hx0 hx1
      have hstep : fracExpand b (p + 1) fr =
          ((pyfloor (fr * (b : ℚ))).toNat ::
            (fracExpand b p (fr * (b : ℚ) - ((pyfloor (fr * (b : ℚ))) : ℚ))).1,
           (fracExpand b p (fr * (b : ℚ) - ((pyfloor (fr * (b : ℚ))) : ℚ))).2) := by
        rw [fracExpand, if_neg hz]
      rw [hstep]
      refine ⟨?_, ihr0, ihr1, ?_, ?_⟩
      · intro d hd
        rcases List.mem_cons.mp hd with rfl | hd'
        · omega
        · exact ihd d hd'
      · simpa using Nat.succ_le_succ ihlen
      · rw [fracVal_cons, List.length_cons]
        have hcast : (((pyfloor (fr * (b : ℚ))).toNat : ℕ) : ℚ) = ((pyfloor (fr * (b : ℚ))) : ℚ) := by
          exact_mod_cast congrArg (fun z : ℤ => (z : ℚ)) (Int.toNat_of_nonneg hd0)
        rw [hcast]
        have hbne : (b : ℚ) ≠ 0 := hb0.ne'
        rw [pow_succ]
        have alg : ∀ (dq F R : ℚ) (L : ℕ), fr * (b : ℚ) - dq = F + R / (b : ℚ) ^ L →
            fr = (dq + F) / (b : ℚ) + R / ((b : ℚ) ^ L * (b : ℚ)) := by
          intro dq F R L hrel
          have hpw : (b : ℚ) ^ L ≠ 0 := pow_ne_zero _ hbne
          field_simp at hrel ⊢
          linear_combination (b : ℚ) * hrel
        exact alg _ _ _ _ ihval

theorem fracExpand_stable (b : ℕ) :
    ∀ (k : ℕ) (j : ℕ) (fr : ℚ), (fracExpand b k fr).2 = 0 →
      fracExpand b (k + j) fr = ((fracExpand b k fr).1, 0) := by
  intro k
  induction k with
  | zero =>
    intro j fr h
    simp only [fracExpand] at h
    subst h
    rw [Nat.zero_add, fracExpand_zero]
    rfl
  | succ k ih =>
    intro j fr h
    by_cases hz : fr = 0
    · subst hz
      rw [fracExpand_zero, fracExpand_zero]
    · have hsucc : k + 1 + j = (k + j) + 1 := by omega
      rw [hsucc, fracExpand, if_neg hz]
      rw [fracExpand, if_neg hz] at h ⊢
      simp only at h ⊢
      rw [ih j _ h]

theorem fracExpand_len_le (b : ℕ) : ∀ (p : ℕ) (fr : ℚ), (fracExpand b p fr).1.length ≤ p := by
  intro p
  induction p with
  | zero => intro fr; simp [fracExpand]
  | succ p ih =>
    intro fr
    by_cases hz : fr = 0
    · subst hz; rw [fracExpand_zero]; simp
    · rw [fracExpand, if_neg hz]
      simpa using Nat.succ_le_succ (ih _)

theorem fracExpand_last_ne_zero (b : ℕ) (hb : 2 ≤ b) :
    ∀ (p : ℕ) (fr : ℚ), 0 ≤ fr → fr < 1 → (fracExpand b p fr).2 = 0 →
      ∀ h : (fracExpand b p fr).1 ≠ [], ((fracExpand b p fr).1).getLast h ≠ 0 := by
  intro p
  induction p with
  | zero => intro fr _ _ _ h; exact absurd rfl h
  | succ p ih =>
    intro fr h0 h1 hrem h
    by_cases hz : fr = 0
    · subst hz; rw [fracExpand_zero] at h; exact absurd rfl h
    · have hb0 : (0 : ℚ) < (b : ℚ) := by exact_mod_cast (by omega : 0 < b)
      have hd0 : 0 ≤ pyfloor (fr * (b : ℚ)) := by
        rw [pyfloor_eq_floor]
        exact Int.floor_nonneg.mpr (by positivity)
      have hx0 : 0 ≤ fr * (b : ℚ) - ((pyfloor (fr * (b : ℚ))) : ℚ) := by
        rw [pyfloor_eq_floor]
        have := Int.floor_le (fr * (b : ℚ))
        linarith
      have hx1 : fr * (b : ℚ) - ((pyfloor (fr * (b : ℚ))) : ℚ) < 1 := by
        rw [pyfloor_eq_floor]
        have := Int.lt_floor_add_one (fr * (b : ℚ))
        linarith
      have hstep : fracExpand b (p + 1) fr =
          ((pyfloor (fr * (b : ℚ))).toNat ::
            (fracExpand b p (fr * (b : ℚ) - ((pyfloor (fr * (b : ℚ))) : ℚ))).1,
           (fracExpand b p (fr * (b : ℚ) - ((pyfloor (fr * (b : ℚ))) : ℚ))).2) := by
        rw [fracExpand, if_neg hz]
      rw [hstep] at hrem
      simp only at hrem
      revert h
      rw [hstep]
      intro h
      by_cases hnil : (fracExpand b p (fr * (b : ℚ) - ((pyfloor (fr * (b : ℚ))) : ℚ))).1 = []
      · revert h
        rw [hnil]
        intro h
        rw [List.getLast_singleton]
        obtain ⟨_, _, _, _, hval⟩ := fracExpand_spec b hb p _ hx0 hx1
        rw [hnil, hrem, fracVal_nil] at hval
        simp only [List.length_nil, pow_zero] at hval
        have hxz : fr * (b : ℚ) - ((pyfloor (fr * (b : ℚ))) : ℚ) = 0 := by
          rw [hval]; norm_num
        have hdq : ((pyfloor (fr * (b : ℚ))) : ℚ) = fr * (b : ℚ) := by linarith
        have hpos : 0 < fr * (b : ℚ) := by
          have : 0 < fr := lt_of_le_of_ne h0 (Ne.symm hz)
          positivity
        have hdne : pyfloor (fr * (b : ℚ)) ≠ 0 := by
          intro hc
          rw [hc] at hdq
          push_cast at hdq
          linarith
        omega
      · rw [List.getLast_cons hnil]
        exact ih _ hx0 hx1 hrem hnil

/-! ### Successive division equals `Nat.digits` -/

theorem divDigitsGo_eq (b : ℕ) (hb : 2 ≤ b) :
    ∀ (fuel n : ℕ), n ≤ fuel → divDigitsGo b fuel n = Nat.digits b n := by
  intro fuel
  induction fuel with
  | zero =>
    intro n hn
    have : n = 0 := by omega
    subst this
    simp [divDigitsGo]
  | succ fuel ih =>
    intro n hn
    rw [divDigitsGo]
    by_cases hz : n = 0
    · subst hz; simp
    · have hpos : 0 < n := Nat.pos_of_ne_zero hz
      have hlt : n / b < n := Nat.div_lt_self hpos (by omega)
      rw [if_neg hz, ih (n / b) (by omega), Nat.digits_def' (by omega : 1 < b) hpos]

theorem divDigits_eq_digits (b : ℕ) (hb : 2 ≤ b) (n : ℕ) : divDigits b n = Nat.digits b n :=
  divDigitsGo_eq b hb n n le_rfl

/-! ### Trailing-zero stripping on digit-value lists -/

theorem dtzN_nil : dropTrailZerosN [] = [] := rfl

theorem dtzN_cons (d : ℕ) (ds : List ℕ) :
    dropTrailZerosN (d :: ds) =
      if dropTrailZerosN ds = [] then (if d = 0 then [] else [d])
      else d :: dropTrailZerosN ds := by
  unfold dropTrailZerosN
  rw [List.reverse_cons, List.dropWhile_append]
  by_cases hemp : (ds.reverse.dropWhile (· = 0)) = []
  · rw [if_pos (by simp [hemp]), if_pos (by simp [hemp])]
    by_cases hd : d = 0
    · subst hd; simp
    · simp [hd]
  · rw [if_neg (by simp [hemp]), if_neg (by simp [hemp])]
    simp

theorem dtzN_eq_nil_iff (ds : List ℕ) : dropTrailZerosN ds = [] ↔ ∀ d ∈ ds, d = 0 := by
  unfold dropTrailZerosN
  rw [List.reverse_eq_nil_iff, List.dropWhile_eq_nil_iff]
  constructor
  · intro h d hd
    have := h d (List.mem_reverse.mpr hd)
    simpa using this
  · intro h d hd
    simpa using h d (List.mem_reverse.mp hd)

theorem dtzN_mem {d : ℕ} {ds : List ℕ} (h : d ∈ dropTrailZerosN ds) : d ∈ ds := by
  unfold dropTrailZerosN at h
  rw [List.mem_reverse] at h
  exact List.mem_reverse.mp (List.dropWhile_subset _ h)

theorem dtzN_getLast_ne_zero (ds : List ℕ) (h : dropTrailZerosN ds ≠ []) :
    (dropTrailZerosN ds).getLast h ≠ 0 := by
  unfold dropTrailZerosN at *
  rw [List.getLast_reverse]
  have hne : ds.reverse.dropWhile (· = 0) ≠ [] := by
    intro hc
    rw [hc] at h
    exact h rfl
  have := List.head_dropWhile_not (· = 0) ds.reverse (by exact hne)
  simpa using this

theorem dtzN_length_le (ds : List ℕ) : (dropTrailZerosN ds).length ≤ ds.length := by
  unfold dropTrailZerosN
  rw [List.length_reverse]
  calc (ds.reverse.dropWhile (· = 0)).length ≤ ds.reverse.length :=
        (List.dropWhile_sublist _).length_le
    _ = ds.length := List.length_reverse ds

theorem fracVal_dtzN (b : ℕ) (hb : 1 ≤ b) :
    ∀ ds : List ℕ, fracVal b (dropTrailZerosN ds) = fracVal b ds := by
  intro ds
  induction ds with
  | nil => rfl
  | cons d ds ih =>
    rw [dtzN_cons]
    by_cases hemp : dropTrailZerosN ds = []
    · rw [if_pos hemp]
      have hall : ∀ x ∈ ds, x = 0 := (dtzN_eq_nil_iff ds).mp hemp
      have hzero : fracVal b ds = 0 := (fracVal_eq_zero_iff b hb ds).mpr hall
      by_cases hd : d = 0
      · subst hd
        rw [if_pos rfl, fracVal_nil, fracVal_cons, hzero]
        simp
      · rw [if_neg hd, fracVal_cons, fracVal_cons, hzero, fracVal_nil]
    · rw [if_neg hemp, fracVal_cons, fracVal_cons, ih]

theorem ofDigits_dtzN (b : ℕ) : ∀ ds : List ℕ, Nat.ofDigits b (dropTrailZerosN ds) = Nat.ofDigits b ds := by
  intro ds
  induction ds with
  | nil => rfl
  | cons d ds ih =>
    rw [dtzN_cons]
    by_cases hemp : dropTrailZerosN ds = []
    · rw [if_pos hemp]
      have hall : ∀ x ∈ ds, x = 0 := (dtzN_eq_nil_iff ds).mp hemp
      have hzero : Nat.ofDigits b ds = 0 := by
        rw [← ih, hemp]
        rfl
      by_cases hd : d = 0
      · subst hd
        rw [if_pos rfl, Nat.ofDigits_cons, hzero]
        rfl
      · rw [if_neg hd, Nat.ofDigits_cons, Nat.ofDigits_cons, hzero, Nat.ofDigits_nil]
    · rw [if_neg hemp, Nat.ofDigits_cons, Nat.ofDigits_cons, ih]

theorem digits_ofDigits_dtzN (b : ℕ) (hb : 2 ≤ b) (ds : List ℕ) (hlt : ∀ d ∈ ds, d < b) :
    Nat.digits b (Nat.ofDigits b ds) = dropTrailZerosN ds := by
  rw [← ofDigits_dtzN]
  exact Nat.digits_ofDigits b (by omega) _
    (fun d hd => hlt d (dtzN_mem hd))
    (fun h => dtzN_getLast_ne_zero ds h)

/-! ### The expansion loop recovers the digits of a terminating fraction -/

theorem fracExpand_fracVal (b : ℕ) (hb : 2 ≤ b) :
    ∀ (ds : List ℕ) (q : ℕ), (∀ d ∈ ds, d < b) → (dropTrailZerosN ds).length ≤ q →
      fracExpand b q (fracVal b ds) = (dropTrailZerosN ds, 0) := by
  intro ds
  induction ds with
  | nil =>
    intro q _ _
    rw [fracVal_nil, fracExpand_zero, dtzN_nil]
  | cons d ds ih =>
    intro q hlt hlen
    have hb1 : (1 : ℕ) ≤ b := by omega
    by_cases hz : fracVal b (d :: ds) = 0
    · have hall : ∀ x ∈ d :: ds, x = 0 := (fracVal_eq_zero_iff b hb1 _).mp hz
      have hnil : dropTrailZerosN (d :: ds) = [] := (dtzN_eq_nil_iff _).mpr hall
      rw [hz, fracExpand_zero, hnil]
    · have hne : dropTrailZerosN (d :: ds) ≠ [] := by
        intro hc
        exact hz ((fracVal_eq_zero_iff b hb1 _).mpr ((dtzN_eq_nil_iff _).mp hc))
      obtain ⟨q', rfl⟩ : ∃ q', q = q' + 1 := by
        refine ⟨q - 1, ?_⟩
        have : 1 ≤ (dropTrailZerosN (d :: ds)).length :=
          List.length_pos.mpr hne
        omega
      have hd : d < b := hlt d (List.mem_cons_self d ds)
      have htail : ∀ x ∈ ds, x < b := fun x hx => hlt x (List.mem_cons_of_mem d hx)
      have hF1 : fracVal b ds < 1 := fracVal_lt_one b hb1 ds htail
      have hF0 : 0 ≤ fracVal b ds := fracVal_nonneg b ds
      have hbne : (b : ℚ) ≠ 0 := by exact_mod_cast (by omega : b ≠ 0)
      have hmul : fracVal b (d :: ds) * (b : ℚ) = (d : ℚ) + fracVal b ds := by
        rw [fracVal_cons]
        field_simp
      have hfloor : pyfloor (fracVal b (d :: ds) * (b : ℚ)) = (d : ℤ) := by
        have hcast : ((d : ℕ) : ℚ) = (((d : ℕ) : ℤ) : ℚ) := by push_cast; ring
        rw [hmul, hcast]
        exact pyfloor_add_int _ _ hF0 hF1
      have hstep : fracExpand b (q' + 1) (fracVal b (d :: ds)) =
          ((pyfloor (fracVal b (d :: ds) * (b : ℚ))).toNat ::
            (fracExpand b q' (fracVal b (d :: ds) * (b : ℚ) -
              ((pyfloor (fracVal b (d :: ds) * (b : ℚ))) : ℚ))).1,
           (fracExpand b q' (fracVal b (d :: ds) * (b : ℚ) -
              ((pyfloor (fracVal b (d :: ds) * (b : ℚ))) : ℚ))).2) := by
        rw [fracExpand, if_neg hz]
      rw [hstep, hfloor]
      have hx : fracVal b (d :: ds) * (b : ℚ) - (((d : ℤ)) : ℚ) = fracVal b ds := by
        rw [hmul]
        push_cast
        ring
      rw [hx]
      by_cases hemp : dropTrailZerosN ds = []
      · have hzero : fracVal b ds = 0 :=
          (fracVal_eq_zero_iff b hb1 ds).mpr ((dtzN_eq_nil_iff ds).mp hemp)
        rw [hzero, fracExpand_zero]
        have hdne : d ≠ 0 := by
          intro hc
          subst hc
          apply hz
          rw [fracVal_cons, hzero]
          simp
        rw [dtzN_cons, if_pos hemp, if_neg hdne]
        simp
      · have hcons : dropTrailZerosN (d :: ds) = d :: dropTrailZerosN ds := by
          rw [dtzN_cons, if_neg hemp]
        rw [hcons] at hlen
        rw [List.length_cons] at hlen
        rw [ih q' htail (by omega), hcons]
        simp

/-! ### Closed form of the printer -/

theorem fract_bounds (v : ℚ) : 0 ≤ v - ((pyfloor v) : ℚ) ∧ v - ((pyfloor v) : ℚ) < 1 := by
  rw [pyfloor_eq_floor]
  have h1 := Int.floor_le v
  have h2 := Int.lt_floor_add_one v
  constructor <;> [linarith; linarith]

theorem desde_eq (v : ℚ) (b p : ℕ) (hb : 2 ≤ b) (hb16 : b ≤ 16) :
    desde_decimal_fraction v b p = .ok (desdeRender v b p) := by
  obtain ⟨hfr0, hfr1⟩ := fract_bounds v
  have hfd : ∀ d ∈ (fracExpand b p (v - ((pyfloor v) : ℚ))).1, d < b :=
    (fracExpand_spec b hb p _ hfr0 hfr1).1
  have hfrac : mapME simbolo_valor (fracExpand b p (v - ((pyfloor v) : ℚ))).1 =
      .ok ((fracExpand b p (v - ((pyfloor v) : ℚ))).1.map simboloP) :=
    mapME_ok_of_forall (fun d hd => simbolo_valor_eq_simboloP d (by have := hfd d hd; omega))
  rw [desde_decimal_fraction, desdeRender]
  by_cases hz : pyfloor v = 0
  · rw [if_pos hz, if_pos hz]
    simp only [except_pure_eq, except_bind_ok, hfrac]
    by_cases hfe : (fracExpand b p (v - ((pyfloor v) : ℚ))).1 = []
    · rw [if_pos (by rw [hfe]; rfl), if_pos hfe]
      simp
    · rw [if_neg (by simp [hfe]), if_neg hfe]
  · rw [if_neg hz, if_neg hz]
    have hent : mapME simbolo_valor (divDigits b (pyfloor v).toNat) =
        .ok ((Nat.digits b (pyfloor v).toNat).map simboloP) := by
      rw [divDigits_eq_digits b hb]
      exact mapME_ok_of_forall (fun d hd => simbolo_valor_eq_simboloP d
        (by have := Nat.digits_lt_base (by omega : 1 < b) hd; omega))
    simp only [hent, except_pure_eq, except_bind_ok, hfrac]
    by_cases hfe : (fracExpand b p (v - ((pyfloor v) : ℚ))).1 = []
    · rw [if_pos (by rw [hfe]; rfl), if_pos hfe]
      simp
    · rw [if_neg (by simp [hfe]), if_neg hfe]

/-! ### Cleaning is the identity on well-formed output -/

theorem dropWhile_eq_self_of {α : Type} (p : α → Bool) :
    ∀ l : List α, (∀ c ∈ l, p c = false) → l.dropWhile p = l := by
  intro l h
  cases l with
  | nil => rfl
  | cons c r =>
    rw [List.dropWhile_cons, if_neg (by rw [h c (List.mem_cons_self c r)]; simp)]

theorem pystrip_fixed {l : List Char} (h : ∀ c ∈ l, Char.isWhitespace c = false) :
    pystrip l = l := by
  unfold pystrip
  rw [dropWhile_eq_self_of _ l h,
    dropWhile_eq_self_of _ l.reverse (fun c hc => h c (List.mem_reverse.mp hc)),
    List.reverse_reverse]

theorem limpiar_fixed {l : List Char} (h : ∀ c ∈ l, c ∈ SYMBOLS ∨ c = '.') :
    limpiar_numero l = l := by
  have hprops : ∀ c ∈ l, Char.isWhitespace c = false ∧ Char.toUpper c = c ∧ c ≠ ',' := by
    intro c hc
    rcases h c hc with hs | rfl
    · exact SYMBOLS_clean_chars c hs
    · exact dot_clean_char
  unfold limpiar_numero
  rw [pystrip_fixed (fun c hc => (hprops c hc).1)]
  rw [List.map_congr_left (fun c hc => (hprops c hc).2.1),
    show (fun c : Char => c) = id from rfl, List.map_id]
  rw [List.map_congr_left (g := id) (fun c hc => by
    simp only [replComma, if_neg (hprops c hc).2.2, id]), List.map_id]

/-! ### Splitting assembled numerals -/

theorem separar_no_dot {l : List Char} (h : '.' ∉ l) : separar_partes l = (l, []) := by
  rw [separar_partes, if_neg h]

theorem takeWhile_ne_dot_append (f : List Char) :
    ∀ e : List Char, '.' ∉ e → (e ++ '.' :: f).takeWhile (· ≠ '.') = e := by
  intro e
  induction e with
  | nil => intro _; simp [List.takeWhile_cons]
  | cons c r ih =>
    intro h
    have hc : c ≠ '.' := by intro hc; exact h (by rw [hc]; exact List.mem_cons_self _ _)
    rw [List.cons_append, List.takeWhile_cons, if_pos (by simp [hc]),
      ih (fun hr => h (List.mem_cons_of_mem c hr))]

theorem dropWhile_ne_dot_append (f : List Char) :
    ∀ e : List Char, '.' ∉ e → (e ++ '.' :: f).dropWhile (· ≠ '.') = '.' :: f := by
  intro e
  induction e with
  | nil => intro _; simp [List.dropWhile_cons]
  | cons c r ih =>
    intro h
    have hc : c ≠ '.' := by intro hc; exact h (by rw [hc]; exact List.mem_cons_self _ _)
    rw [List.cons_append, List.dropWhile_cons, if_pos (by simp [hc]),
      ih (fun hr => h (List.mem_cons_of_mem c hr))]

theorem separar_with_dot {e : List Char} (f : List Char) (he : '.' ∉ e) :
    separar_partes (e ++ '.' :: f) = (e, f) := by
  rw [separar_partes, if_pos (by simp), takeWhile_ne_dot_append f e he,
    dropWhile_ne_dot_append f e he]
  rfl

theorem mapME_charDigit_map_simboloP {b : ℕ} (hb16 : b ≤ 16) :
    ∀ ds : List ℕ, (∀ d ∈ ds, d < b) → mapME (charDigit b) (ds.map simboloP) = .ok ds := by
  intro ds
  induction ds with
  | nil => intro _; rfl
  | cons d rest ih =>
    intro h
    rw [List.map_cons, mapME, charDigit_simboloP hb16 (h d (List.mem_cons_self d rest)),
      except_bind_ok, ih (fun x hx => h x (List.mem_cons_of_mem d hx)), except_bind_ok]
    rfl

/-! ### Parsing the printer's output -/

theorem desdeRender_ent_chars (v : ℚ) (b p : ℕ) (hb : 2 ≤ b) (hb16 : b ≤ 16) :
    ∀ c ∈ (if pyfloor v = 0 then ['0']
      else ((Nat.digits b (pyfloor v).toNat).map simboloP).reverse), c ∈ SYMBOLS ∧ c ≠ '.' := by
  intro c hc
  by_cases hz : pyfloor v = 0
  · rw [if_pos hz] at hc
    simp only [List.mem_singleton] at hc
    subst hc
    exact ⟨by decide, by decide⟩
  · rw [if_neg hz] at hc
    rw [List.mem_reverse] at hc
    obtain ⟨d, hd, rfl⟩ := List.mem_map.mp hc
    have hd16 : d < 16 := lt_of_lt_of_le (Nat.digits_lt_base (by omega) hd) hb16
    exact ⟨simboloP_mem_SYMBOLS d hd16, simboloP_ne_dot d hd16⟩

theorem desdeRender_chars (v : ℚ) (b p : ℕ) (hb : 2 ≤ b) (hb16 : b ≤ 16) :
    ∀ c ∈ desdeRender v b p, c ∈ SYMBOLS ∨ c = '.' := by
  intro c hc
  rw [desdeRender, List.mem_append] at hc
  rcases hc with hc | hc
  · exact Or.inl (desdeRender_ent_chars v b p hb hb16 c hc).1
  · by_cases hfe : (fracExpand b p (v - ((pyfloor v) : ℚ))).1 = []
    · rw [if_pos hfe] at hc
      cases hc
    · rw [if_neg hfe] at hc
      rcases List.mem_cons.mp hc with rfl | hc'
      · exact Or.inr rfl
      · obtain ⟨d, hd, rfl⟩ := List.mem_map.mp hc'
        obtain ⟨hfr0, hfr1⟩ := fract_bounds v
        have := (fracExpand_spec b hb p _ hfr0 hfr1).1 d hd
        exact Or.inl (simboloP_mem_SYMBOLS d (by omega))

theorem parse_ent_desde (v : ℚ) (b : ℕ) (hb : 2 ≤ b) (hb16 : b ≤ 16) (hv : 0 ≤ v) :
    ∃ es, mapME (charDigit b)
        (if pyfloor v = 0 then ['0']
         else ((Nat.digits b (pyfloor v).toNat).map simboloP).reverse).reverse = .ok es ∧
      ((Nat.ofDigits b es : ℕ) : ℚ) = ((pyfloor v) : ℚ) := by
  by_cases hz : pyfloor v = 0
  · refine ⟨[0], ?_, ?_⟩
    · rw [if_pos hz]
      have hrepr : (['0'] : List Char).reverse = ([0] : List ℕ).map simboloP := by decide
      rw [hrepr]
      exact mapME_charDigit_map_simboloP hb16 [0] (fun d hd => by
        simp only [List.mem_singleton] at hd
        omega)
    · rw [hz]
      simp [Nat.ofDigits]
  · refine ⟨Nat.digits b (pyfloor v).toNat, ?_, ?_⟩
    · rw [if_neg hz, List.reverse_reverse]
      exact mapME_charDigit_map_simboloP hb16 _ (fun d hd => Nat.digits_lt_base (by omega) hd)
    · rw [Nat.ofDigits_digits]
      have hnn : 0 ≤ pyfloor v := by
        rw [pyfloor_eq_floor]
        exact Int.floor_nonneg.mpr hv
      exact_mod_cast congrArg (fun z : ℤ => (z : ℚ)) (Int.toNat_of_nonneg hnn)

theorem a_decimal_desde (v : ℚ) (b p : ℕ) (hb : 2 ≤ b) (hb16 : b ≤ 16) (hv : 0 ≤ v) :
    a_decimal_fraction (desdeRender v b p) b =
      .ok (v - (fracExpand b p (v - ((pyfloor v) : ℚ))).2 /
        (b : ℚ) ^ (fracExpand b p (v - ((pyfloor v) : ℚ))).1.length) := by
  obtain ⟨hfr0, hfr1⟩ := fract_bounds v
  have hfd := (fracExpand_spec b hb p _ hfr0 hfr1).1
  have hval := (fracExpand_spec b hb p _ hfr0 hfr1).2.2.2.2
  have hclean : limpiar_numero (desdeRender v b p) = desdeRender v b p :=
    limpiar_fixed (desdeRender_chars v b p hb hb16)
  obtain ⟨es, hes, hesval⟩ := parse_ent_desde v b hb hb16 hv
  have hentdot : '.' ∉ (if pyfloor v = 0 then ['0']
      else ((Nat.digits b (pyfloor v).toNat).map simboloP).reverse) := by
    intro hc
    exact (desdeRender_ent_chars v b p hb hb16 '.' hc).2 rfl
  rw [a_decimal_eq _ b (by omega), hclean]
  by_cases hfe : (fracExpand b p (v - ((pyfloor v) : ℚ))).1 = []
  · have hrender : desdeRender v b p =
        (if pyfloor v = 0 then ['0']
         else ((Nat.digits b (pyfloor v).toNat).map simboloP).reverse) := by
      rw [desdeRender, if_pos hfe, List.append_nil]
    rw [hrender, separar_no_dot hentdot]
    dsimp only
    rw [hes, except_bindf_ok]
    simp only [mapME, Except.map, except_pure_eq]
    rw [hfe] at hval
    rw [fracVal_nil, List.length_nil, pow_zero] at hval
    rw [hfe, List.length_nil, pow_zero]
    congr 1
    rw [fracVal_nil, hesval]
    linarith
  · have hrender : desdeRender v b p =
        (if pyfloor v = 0 then ['0']
         else ((Nat.digits b (pyfloor v).toNat).map simboloP).reverse) ++
          '.' :: ((fracExpand b p (v - ((pyfloor v) : ℚ))).1.map simboloP) := by
      rw [desdeRender, if_neg hfe]
    rw [hrender, separar_with_dot _ hentdot]
    dsimp only
    rw [hes, except_bindf_ok, mapME_charDigit_map_simboloP hb16 _ hfd]
    simp only [Except.map]
    congr 1
    rw [hesval]
    linarith

/-! ### Dispatch structure of the orchestrator -/

theorem validar_base_valid {b : ℕ} (h : 2 ≤ b ∧ b ≤ 16) : validar_base b = .ok () := by
  rw [validar_base, if_pos h]

theorem validar_base_invalid {b : ℕ} (h : ¬(2 ≤ b ∧ b ≤ 16)) :
    validar_base b = .error .invalidBase := by
  rw [validar_base, if_neg h]

theorem convertir_eq_checked (num : List Char) (b1 b2 p : ℕ)
    (h1 : 2 ≤ b1 ∧ b1 ≤ 16) (h2 : 2 ≤ b2 ∧ b2 ≤ 16) :
    convertir num b1 b2 p =
      (if b1 = 2 ∧ (b2 = 8 ∨ b2 = 16) then bin_to_base_direct (limpiar_numero num) b2
       else if b2 = 2 ∧ (b1 = 8 ∨ b1 = 16) then base_to_bin_direct (limpiar_numero num) b1
       else (a_decimal_fraction (limpiar_numero num) b1).bind fun dec =>
         desde_decimal_fraction dec b2 p) := by
  rw [convertir, validar_base_valid h1, except_bind_ok, validar_base_valid h2, except_bind_ok]
  rfl

theorem convertir_eq_bin_direct (num : List Char) (b2 p : ℕ) (h2 : b2 = 8 ∨ b2 = 16) :
    convertir num 2 b2 p = bin_to_base_direct (limpiar_numero num) b2 := by
  rw [convertir_eq_checked num 2 b2 p (by omega) (by rcases h2 with rfl | rfl <;> omega),
    if_pos ⟨rfl, h2⟩]

theorem convertir_eq_base_direct (num : List Char) (b1 p : ℕ) (h1 : b1 = 8 ∨ b1 = 16) :
    convertir num b1 2 p = base_to_bin_direct (limpiar_numero num) b1 := by
  rw [convertir_eq_checked num b1 2 p (by rcases h1 with rfl | rfl <;> omega) (by omega),
    if_neg (by rcases h1 with rfl | rfl <;> simp), if_pos ⟨rfl, h1⟩]

theorem convertir_eq_general (num : List Char) (b1 b2 p : ℕ)
    (h1 : 2 ≤ b1 ∧ b1 ≤ 16) (h2 : 2 ≤ b2 ∧ b2 ≤ 16)
    (hd1 : ¬(b1 = 2 ∧ (b2 = 8 ∨ b2 = 16))) (hd2 : ¬(b2 = 2 ∧ (b1 = 8 ∨ b1 = 16))) :
    convertir num b1 b2 p = general_decimal_intermediate num b1 b2 p := by
  rw [convertir_eq_checked num b1 b2 p h1 h2, if_neg hd1, if_neg hd2,
    general_decimal_intermediate]
  rfl

/-- **C7.** For every source or target base outside `[2,16]` and every numeral
string, `convertir` fails with `InvalidBase`: the base validation runs before
the numeral is normalized or examined, and the whole call returns the
`InvalidBase` error with no other output. -/
theorem c7_invalid_base_fails (num : List Char) (b1 b2 p : ℕ)
    (h : b1 < 2 ∨ 16 < b1 ∨ b2 < 2 ∨ 16 < b2) :
    convertir num b1 b2 p = .error .invalidBase := by
  by_cases h1 : 2 ≤ b1 ∧ b1 ≤ 16
  · have h2 : ¬(2 ≤ b2 ∧ b2 ≤ 16) := by omega
    rw [convertir, validar_base_valid h1, except_bind_ok, validar_base_invalid h2,
      except_bind_error]
  · rw [convertir, validar_base_invalid h1, except_bind_error]

/-- Witness for C7 at `b1 = 17`. -/
theorem c7_invalid_base_fails_witness :
    convertir ['1'] 17 10 20 = .error .invalidBase :=
  c7_invalid_base_fails ['1'] 17 10 20 (by decide)

/-! ### Concrete-evaluation helpers for the rational loops -/

theorem pyfloor_eval {q : ℚ} {n : ℤ} (h1 : (n : ℚ) ≤ q) (h2 : q < (n : ℚ) + 1) :
    pyfloor q = n := by
  rw [pyfloor_eq_floor]
  exact Int.floor_eq_iff.mpr ⟨h1, by push_cast; exact_mod_cast h2⟩

theorem fracExpand_step (b p : ℕ) (fr : ℚ) (hz : fr ≠ 0) (d : ℤ) (x : ℚ)
    (hd : pyfloor (fr * (b : ℚ)) = d) (hx : fr * (b : ℚ) - (d : ℚ) = x) :
    fracExpand b (p + 1) fr = (d.toNat :: (fracExpand b p x).1, (fracExpand b p x).2) := by
  have hstep : fracExpand b (p + 1) fr =
      ((pyfloor (fr * (b : ℚ))).toNat ::
        (fracExpand b p (fr * (b : ℚ) - ((pyfloor (fr * (b : ℚ))) : ℚ))).1,
       (fracExpand b p (fr * (b : ℚ) - ((pyfloor (fr * (b : ℚ))) : ℚ))).2) := by
    rw [fracExpand, if_neg hz]
  rw [hstep, hd, hx]

theorem separar_desdeRender (v : ℚ) (b p : ℕ) (hb : 2 ≤ b) (hb16 : b ≤ 16) :
    separar_partes (desdeRender v b p) =
      ((if pyfloor v = 0 then ['0']
        else ((Nat.digits b (pyfloor v).toNat).map simboloP).reverse),
       (fracExpand b p (v - ((pyfloor v) : ℚ))).1.map simboloP) := by
  have hentdot : '.' ∉ (if pyfloor v = 0 then ['0']
      else ((Nat.digits b (pyfloor v).toNat).map simboloP).reverse) := by
    intro hc
    exact (desdeRender_ent_chars v b p hb hb16 '.' hc).2 rfl
  by_cases hfe : (fracExpand b p (v - ((pyfloor v) : ℚ))).1 = []
  · rw [desdeRender, if_pos hfe, List.append_nil, separar_no_dot hentdot, hfe]
    rfl
  · rw [desdeRender, if_neg hfe, separar_with_dot _ hentdot]

/-- **C4.** The fractional-expansion loop is capped: every successful
general-path print carries at most `precision` fractional digits, and if the
remaining fraction becomes exactly zero within `k ≤ precision` steps the
output carries at most `k` fractional digits (the loop stops at whichever
comes first). -/
theorem c4_precision_cap (v : ℚ) (b p : ℕ) (out : List Char)
    (hb : 2 ≤ b) (hb16 : b ≤ 16)
    (h : desde_decimal_fraction v b p = .ok out) :
    (separar_partes out).2.length ≤ p ∧
      ∀ k, k ≤ p → (fracExpand b k (v - ((pyfloor v) : ℚ))).2 = 0 →
        (separar_partes out).2.length ≤ k := by
  rw [desde_eq v b p hb hb16] at h
  cases h
  rw [separar_desdeRender v b p hb hb16]
  constructor
  · simpa using fracExpand_len_le b p (v - ((pyfloor v) : ℚ))
  · intro k hk hrem
    have hstable := fracExpand_stable b k (p - k) (v - ((pyfloor v) : ℚ)) hrem
    have hpk : k + (p - k) = p := by omega
    rw [hpk] at hstable
    rw [hstable]
    simpa using fracExpand_len_le b k (v - ((pyfloor v) : ℚ))

theorem pyfloor_half : pyfloor ((1 : ℚ)/2) = 0 := pyfloor_eval (by norm_num) (by norm_num)

theorem fracExpand_half : fracExpand 10 3 ((1 : ℚ)/2) = ([5], 0) := by
  have h1 : fracExpand 10 3 ((1 : ℚ)/2) = ((5 : ℤ).toNat :: (fracExpand 10 2 0).1,
      (fracExpand 10 2 0).2) := by
    refine fracExpand_step 10 2 _ (by norm_num) 5 0 ?_ (by push_cast; norm_num)
    exact pyfloor_eval (by push_cast; norm_num) (by push_cast; norm_num)
  rw [h1, fracExpand_zero]
  rfl

theorem desde_half : desde_decimal_fraction ((1 : ℚ)/2) 10 3 = .ok ['0', '.', '5'] := by
  rw [desde_eq _ _ _ (by norm_num) (by norm_num)]
  congr 1
  rw [desdeRender, if_pos pyfloor_half]
  have hfr : (1 : ℚ)/2 - ((pyfloor ((1 : ℚ)/2)) : ℚ) = (1 : ℚ)/2 := by
    rw [pyfloor_half]
    norm_num
  rw [hfr, fracExpand_half]
  decide

/-- Witness for C4 at `v = 1/2`, base 10, precision 3 (output `"0.5"`). -/
theorem c4_precision_cap_witness :
    (separar_partes ['0', '.', '5']).2.length ≤ 3 ∧
      ∀ k, k ≤ 3 → (fracExpand 10 k ((1 : ℚ)/2 - ((pyfloor ((1 : ℚ)/2)) : ℚ))).2 = 0 →
        (separar_partes ['0', '.', '5']).2.length ≤ k :=
  c4_precision_cap ((1 : ℚ)/2) 10 3 ['0', '.', '5'] (by norm_num) (by norm_num) desde_half

/-! ### C9: trailing zeros in the general path -/

/-- **C9 (amended).** When the fractional expansion terminates within the
precision cap, a general-path result that carries a separator ends in a
nonzero digit: it never ends in `'.'` nor in `'0'`.  (When the cap truncates
the expansion, the standalone printer does not strip trailing zeros — see the
counterexample.) -/
theorem c9_terminating_no_trailing_zero (v : ℚ) (b p : ℕ) (out : List Char)
    (hb : 2 ≤ b) (hb16 : b ≤ 16)
    (h : desde_decimal_fraction v b p = .ok out)
    (hterm : (fracExpand b p (v - ((pyfloor v) : ℚ))).2 = 0)
    (hdot : '.' ∈ out) :
    out.getLast? ≠ some '0' ∧ out.getLast? ≠ some '.' := by
  rw [desde_eq v b p hb hb16] at h
  cases h
  obtain ⟨hfr0, hfr1⟩ := fract_bounds v
  by_cases hfe : (fracExpand b p (v - ((pyfloor v) : ℚ))).1 = []
  · exfalso
    rw [desdeRender, if_pos hfe, List.append_nil] at hdot
    exact (desdeRender_ent_chars v b p hb hb16 '.' hdot).2 rfl
  · have hlast := fracExpand_last_ne_zero b hb p _ hfr0 hfr1 hterm hfe
    have hmapne : (fracExpand b p (v - ((pyfloor v) : ℚ))).1.map simboloP ≠ [] := by
      simp [hfe]
    have hrender : desdeRender v b p =
        (if pyfloor v = 0 then ['0']
         else ((Nat.digits b (pyfloor v).toNat).map simboloP).reverse) ++
          '.' :: ((fracExpand b p (v - ((pyfloor v) : ℚ))).1.map simboloP) := by
      rw [desdeRender, if_neg hfe]
    have hlq : (desdeRender v b p).getLast? =
        some (simboloP ((fracExpand b p (v - ((pyfloor v) : ℚ))).1.getLast hfe)) := by
      rw [hrender, List.getLast?_append]
      have h1 : ('.' :: (fracExpand b p (v - ((pyfloor v) : ℚ))).1.map simboloP).getLast? =
          ((fracExpand b p (v - ((pyfloor v) : ℚ))).1.map simboloP).getLast? := by
        cases hm : (fracExpand b p (v - ((pyfloor v) : ℚ))).1.map simboloP with
        | nil => exact absurd hm hmapne
        | cons a l => rw [List.getLast?_cons_cons]
      rw [h1, List.getLast?_map, List.getLast?_eq_getLast _ hfe]
      rfl
    have hdlast := (fracExpand_spec b hb p _ hfr0 hfr1).1 _
      (List.getLast_mem hfe)
    have h16 : (fracExpand b p (v - ((pyfloor v) : ℚ))).1.getLast hfe < 16 := by omega
    rw [hlq]
    constructor
    · intro hc
      have := (simboloP_eq_zero_iff _ h16).mp (by injection hc)
      exact hlast this
    · intro hc
      exact simboloP_ne_dot _ h16 (by injection hc)

theorem fracExpand_1005 : fracExpand 10 3 ((201 : ℚ)/2000) = ([1, 0, 0], (1 : ℚ)/2) := by
  have h1 : fracExpand 10 3 ((201 : ℚ)/2000) =
      ((1 : ℤ).toNat :: (fracExpand 10 2 ((1 : ℚ)/200)).1, (fracExpand 10 2 ((1 : ℚ)/200)).2) :=
    fracExpand_step 10 2 _ (by norm_num) 1 ((1 : ℚ)/200)
      (pyfloor_eval (by push_cast; norm_num) (by push_cast; norm_num))
      (by push_cast; norm_num)
  have h2 : fracExpand 10 2 ((1 : ℚ)/200) =
      ((0 : ℤ).toNat :: (fracExpand 10 1 ((1 : ℚ)/20)).1, (fracExpand 10 1 ((1 : ℚ)/20)).2) :=
    fracExpand_step 10 1 _ (by norm_num) 0 ((1 : ℚ)/20)
      (pyfloor_eval (by push_cast; norm_num) (by push_cast; norm_num))
      (by push_cast; norm_num)
  have h3 : fracExpand 10 1 ((1 : ℚ)/20) =
      ((0 : ℤ).toNat :: (fracExpand 10 0 ((1 : ℚ)/2)).1, (fracExpand 10 0 ((1 : ℚ)/2)).2) :=
    fracExpand_step 10 0 _ (by norm_num) 0 ((1 : ℚ)/2)
      (pyfloor_eval (by push_cast; norm_num) (by push_cast; norm_num))
      (by push_cast; norm_num)
  rw [h1, h2, h3]
  rfl

theorem parse_1005 : a_decimal_fraction ['0', '.', '1', '0', '0', '5'] 10 = .ok ((201 : ℚ)/2000) := by
  have he : mapME (charDigit 10)
      (separar_partes (limpiar_numero ['0', '.', '1', '0', '0', '5'])).1.reverse = .ok [0] := by
    decide
  have hf : mapME (charDigit 10)
      (separar_partes (limpiar_numero ['0', '.', '1', '0', '0', '5'])).2 = .ok [1, 0, 0, 5] := by
    decide
  have := a_decimal_ok_of (by norm_num) he hf
  rw [this]
  congr 1
  rw [fracVal_cons, fracVal_cons, fracVal_cons, fracVal_cons, fracVal_nil]
  norm_num [Nat.ofDigits]

theorem desde_1005 : desde_decimal_fraction ((201 : ℚ)/2000) 10 3 = .ok ['0', '.', '1', '0', '0'] := by
  rw [desde_eq _ _ _ (by norm_num) (by norm_num)]
  congr 1
  have hpz : pyfloor ((201 : ℚ)/2000) = 0 := pyfloor_eval (by norm_num) (by norm_num)
  rw [desdeRender, if_pos hpz]
  have hfr : (201 : ℚ)/2000 - ((pyfloor ((201 : ℚ)/2000)) : ℚ) = (201 : ℚ)/2000 := by
    rw [hpz]
    norm_num
  rw [hfr, fracExpand_1005]
  decide

/-- **C9 counterexample.** The general path does not strip trailing zeros:
`convertir "0.1005" 10 10 3` truncates at precision 3 and returns `"0.100"`,
which ends in the fractional digit `'0'`. -/
theorem c9_counterexample :
    convertir ['0', '.', '1', '0', '0', '5'] 10 10 3 = .ok ['0', '.', '1', '0', '0'] ∧
      (['0', '.', '1', '0', '0'] : List Char).getLast? = some '0' := by
  constructor
  · rw [convertir_eq_general _ 10 10 3 (by omega) (by omega) (by omega) (by omega),
      general_decimal_intermediate]
    have hclean : limpiar_numero ['0', '.', '1', '0', '0', '5'] = ['0', '.', '1', '0', '0', '5'] := by
      decide
    rw [hclean, parse_1005, except_bind_ok, desde_1005]
  · rfl

/-- Witness for the amended C9 at `v = 1/2`, base 10, precision 3
(output `"0.5"`, a terminating expansion). -/
theorem c9_terminating_no_trailing_zero_witness :
    (['0', '.', '5'] : List Char).getLast? ≠ some '0' ∧
      (['0', '.', '5'] : List Char).getLast? ≠ some '.' :=
  c9_terminating_no_trailing_zero ((1 : ℚ)/2) 10 3 ['0', '.', '5'] (by norm_num) (by norm_num)
    desde_half
    (by rw [show (1 : ℚ)/2 - ((pyfloor ((1 : ℚ)/2)) : ℚ) = (1 : ℚ)/2 by rw [pyfloor_half]; norm_num,
      fracExpand_half])
    (by decide)

/-! ### C1: exactness of the general path -/

theorem ofDigits_eq_sum (b : ℕ) :
    ∀ L : List ℕ, ((Nat.ofDigits b L : ℕ) : ℚ) =
      ∑ i ∈ Finset.range L.length, (L.getD i 0 : ℚ) * (b : ℚ) ^ i := by
  intro L
  induction L with
  | nil => simp [Nat.ofDigits_nil]
  | cons d L ih =>
    rw [Nat.ofDigits_cons, List.length_cons, Finset.sum_range_succ']
    rw [Nat.cast_add, Nat.cast_mul, ih]
    simp only [List.getD_cons_succ, List.getD_cons_zero, pow_zero, mul_one, pow_succ]
    rw [Finset.mul_sum, add_comm]
    congr 1
    apply Finset.sum_congr rfl
    intro i _
    ring

theorem specIntSum_eq_ofDigits (b : ℕ) (es : List ℕ) :
    specIntSum b es.reverse = ((Nat.ofDigits b es : ℕ) : ℚ) := by
  rw [specIntSum, List.reverse_reverse, List.length_reverse, ofDigits_eq_sum]

theorem fracVal_eq_specFracSum (b : ℕ) (hb : 0 < b) :
    ∀ fs : List ℕ, fracVal b fs = specFracSum b fs := by
  have hbne : (b : ℚ) ≠ 0 := by exact_mod_cast hb.ne'
  intro fs
  induction fs with
  | nil => simp [fracVal_nil, specFracSum]
  | cons d fs ih =>
    rw [fracVal_cons, ih, specFracSum, specFracSum, List.length_cons, Finset.sum_range_succ']
    simp only [List.getD_cons_succ, List.getD_cons_zero]
    rw [add_div, add_comm]
    congr 1
    · rw [Finset.sum_div]
      apply Finset.sum_congr rfl
      intro i _
      rw [div_div]
      ring
    · norm_num

theorem a_decimal_nonneg {num : List Char} {b : ℕ} {v : ℚ} (hb : 0 < b)
    (h : a_decimal_fraction num b = .ok v) : 0 ≤ v := by
  obtain ⟨es, fs, _, _, rfl⟩ := a_decimal_ok hb h
  have := fracVal_nonneg b fs
  positivity

/-- **C1.** The general path computes the exact rational value of the input as
the spec's two positional sums, and the printed output — successive division
for the integer part, successive multiplication for the fractional part —
denotes exactly that value whenever the target-base fractional expansion
terminates within `precision` digits. -/
theorem c1_general_path_exact (num : List Char) (b1 b2 p : ℕ) (v : ℚ)
    (hb1 : 2 ≤ b1) (hb1' : b1 ≤ 16) (hb2 : 2 ≤ b2) (hb2' : b2 ≤ 16)
    (hparse : a_decimal_fraction num b1 = .ok v)
    (hterm : (fracExpand b2 p (v - ((pyfloor v) : ℚ))).2 = 0) :
    (∃ es fs,
        mapME (charDigit b1) (separar_partes (limpiar_numero num)).1.reverse = .ok es ∧
        mapME (charDigit b1) (separar_partes (limpiar_numero num)).2 = .ok fs ∧
        v = specIntSum b1 es.reverse + specFracSum b1 fs) ∧
      ∃ out, desde_decimal_fraction v b2 p = .ok out ∧
        a_decimal_fraction out b2 = .ok v := by
  have hv : 0 ≤ v := a_decimal_nonneg (by omega) hparse
  constructor
  · obtain ⟨es, fs, hes, hfs, hval⟩ := a_decimal_ok (by omega : 0 < b1) hparse
    exact ⟨es, fs, hes, hfs, by
      rw [hval, specIntSum_eq_ofDigits, fracVal_eq_specFracSum b1 (by omega)]⟩
  · refine ⟨desdeRender v b2 p, desde_eq v b2 p hb2 hb2', ?_⟩
    rw [a_decimal_desde v b2 p hb2 hb2' hv, hterm]
    norm_num

theorem parse_12_base3 : a_decimal_fraction ['1', '2'] 3 = .ok (5 : ℚ) := by
  have he : mapME (charDigit 3)
      (separar_partes (limpiar_numero ['1', '2'])).1.reverse = .ok [2, 1] := by decide
  have hf : mapME (charDigit 3)
      (separar_partes (limpiar_numero ['1', '2'])).2 = .ok [] := by decide
  rw [a_decimal_ok_of (by norm_num) he hf]
  congr 1
  rw [fracVal_nil]
  norm_num [Nat.ofDigits]

theorem pyfloor_five : pyfloor (5 : ℚ) = 5 := by
  have := pyfloor_natCast 5
  exact_mod_cast this

theorem fract_five_expand : (fracExpand 10 1 ((5 : ℚ) - ((pyfloor (5 : ℚ)) : ℚ))).2 = 0 := by
  rw [pyfloor_five, show (5 : ℚ) - ((5 : ℤ) : ℚ) = 0 by norm_num, fracExpand_zero]

/-- Witness for C1: `"12"` in base 3 (value 5) printed in base 10 with
precision 1. -/
theorem c1_general_path_exact_witness :
    (∃ es fs,
        mapME (charDigit 3) (separar_partes (limpiar_numero ['1', '2'])).1.reverse = .ok es ∧
        mapME (charDigit 3) (separar_partes (limpiar_numero ['1', '2'])).2 = .ok fs ∧
        (5 : ℚ) = specIntSum 3 es.reverse + specFracSum 3 fs) ∧
      ∃ out, desde_decimal_fraction (5 : ℚ) 10 1 = .ok out ∧
        a_decimal_fraction out 10 = .ok (5 : ℚ) :=
  c1_general_path_exact ['1', '2'] 3 10 1 5 (by norm_num) (by norm_num) (by norm_num)
    (by norm_num) parse_12_base3 fract_five_expand

/-! ### C2 and C3: the backend port's validation and fraction slips -/

theorem backend_convert_eq_general (num : List Char) (b1 b2 p : ℕ)
    (h1 : 2 ≤ b1 ∧ b1 ≤ 16) (h2 : 2 ≤ b2 ∧ b2 ≤ 16)
    (hd1 : ¬(b1 = 2 ∧ (b2 = 8 ∨ b2 = 16))) (hd2 : ¬(b2 = 2 ∧ (b1 = 8 ∨ b1 = 16))) :
    Backend._convert num b1 b2 p =
      (Backend._to_decimal_fraction (limpiar_numero num) b1).bind fun dec =>
        Backend._from_decimal_fraction dec b2 p := by
  rw [Backend._convert]
  rw [show Backend._validate_base b1 = .ok () from by rw [Backend._validate_base, if_pos h1]]
  rw [except_bind_ok]
  rw [show Backend._validate_base b2 = .ok () from by rw [Backend._validate_base, if_pos h2]]
  rw [except_bind_ok, if_neg hd1, if_neg hd2]
  rfl

theorem backend_to_dec_9 : Backend._to_decimal_fraction ['9'] 8 = .ok (((9 : ℕ) : ℚ) + 0) := rfl

theorem backend_from_dec_9 : Backend._from_decimal_fraction (((9 : ℕ) : ℚ) + 0) 10 20 = .ok ['9'] := by
  have hval : ((9 : ℕ) : ℚ) + 0 = ((9 : ℕ) : ℚ) := by norm_num
  have htr : Backend.pytrunc ((9 : ℕ) : ℚ) = 9 := by
    unfold Backend.pytrunc
    rw [Rat.num_natCast, Rat.den_natCast]
    decide
  have hfr : ((9 : ℕ) : ℚ) - (((9 : ℤ)) : ℚ) = 0 := by push_cast; ring
  have hmap : mapME (fun (d : ℕ) => Backend._value_symbol (d : ℤ)) (divDigits 10 (9 : ℤ).toNat) =
      .ok ['9'] := by decide
  rw [hval]
  simp only [Backend._from_decimal_fraction, htr, hfr, hmap, except_bind_ok, except_pure_eq,
    except_bindf_ok]
  norm_num

/-- **C2 (code bug in the backend).** The standalone engine rejects the digit
`'9'` in base 8 with `DigitOutOfRange`, but the backend
`_to_decimal_fraction` never compares a digit value against the declared
base: `convert("9", 8, 10)` succeeds there and returns `"9"`. -/
theorem c2_digit_validation :
    convertir ['9'] 8 10 20 = .error (.digitOutOfRange '9' 8) ∧
      Backend._convert ['9'] 8 10 20 = .ok ['9'] := by
  constructor
  · rw [convertir_eq_general _ 8 10 20 (by omega) (by omega) (by omega) (by omega),
      general_decimal_intermediate]
    rw [show limpiar_numero ['9'] = ['9'] from by decide]
    rw [a_decimal_eq _ 8 (by omega)]
    rw [show mapME (charDigit 8) (separar_partes (limpiar_numero ['9'])).1.reverse =
      .error (.digitOutOfRange '9' 8) from by decide]
    rfl
  · rw [backend_convert_eq_general _ 8 10 20 (by omega) (by omega) (by omega) (by omega),
      show limpiar_numero ['9'] = ['9'] from by decide, backend_to_dec_9,
      except_bindf_ok, backend_from_dec_9]

/-- **C3 (code bug in the backend).** The standalone direct path splits off
and regroups the fractional bits (`"1010.1"` in base 2 → `"12.4"` in base 8),
but the backend `_bin_to_base_direct` never splits on the separator: the
`'.'` lands inside a bit group and `int(group, 2)` raises, so fractional
binary inputs fail on the backend fast path. -/
theorem c3_direct_fractional :
    convertir ['1', '0', '1', '0', '.', '1'] 2 8 20 = .ok ['1', '2', '.', '4'] ∧
      Backend._convert ['1', '0', '1', '0', '.', '1'] 2 8 20 =
        .error (.invalidIntLiteral ['0', '.', '1']) := by
  constructor
  · decide
  · decide

/-! ### C8: empty input does not fail -/

theorem desde_zero (b p : ℕ) (hb : 2 ≤ b) (hb16 : b ≤ 16) :
    desde_decimal_fraction 0 b p = .ok ['0'] := by
  rw [desde_eq _ _ _ hb hb16]
  congr 1
  rw [desdeRender, if_pos pyfloor_zero]
  rw [show (0 : ℚ) - ((pyfloor (0 : ℚ)) : ℚ) = 0 by rw [pyfloor_zero]; norm_num,
    fracExpand_zero]
  simp

/-- **C8 counterexample.** `convertir "" 10 2` does not fail with any
empty-input error: it succeeds and returns the numeral `"0"`. -/
theorem c8_counterexample : convertir [] 10 2 20 = .ok ['0'] := by
  rw [convertir_eq_checked [] 10 2 20 (by omega) (by omega), if_neg (by omega),
    if_neg (by omega)]
  rw [show limpiar_numero [] = [] from rfl]
  rw [show a_decimal_fraction [] 10 = .ok (((0 : ℕ) : ℚ) + 0) from rfl]
  rw [except_bindf_ok]
  rw [show ((0 : ℕ) : ℚ) + 0 = 0 by norm_num]
  exact desde_zero 2 20 (by omega) (by omega)

/-- **C8 (amended).** There is no `EmptyInput` failure in the engine: every
input that is empty after normalization (the empty string, whitespace-only
strings) converts successfully to `"0"`, on every path, for all bases in
`[2,16]`.  (Only the backend `convert_number` wrapper rejects the literally
empty raw string before normalization; whitespace-only input reaches the
conversion and yields `"0"` there too.) -/
theorem c8_empty_converts_to_zero (s : List Char) (b1 b2 p : ℕ)
    (hclean : limpiar_numero s = [])
    (hb1 : 2 ≤ b1) (hb1' : b1 ≤ 16) (hb2 : 2 ≤ b2) (hb2' : b2 ≤ 16) :
    convertir s b1 b2 p = .ok ['0'] := by
  rw [convertir_eq_checked s b1 b2 p ⟨hb1, hb1'⟩ ⟨hb2, hb2'⟩, hclean]
  by_cases hd1 : b1 = 2 ∧ (b2 = 8 ∨ b2 = 16)
  · rw [if_pos hd1]
    rcases hd1.2 with rfl | rfl <;> decide
  · rw [if_neg hd1]
    by_cases hd2 : b2 = 2 ∧ (b1 = 8 ∨ b1 = 16)
    · rw [if_pos hd2]
      rcases hd2.2 with rfl | rfl <;> decide
    · rw [if_neg hd2]
      rw [show a_decimal_fraction [] b1 = .ok (((0 : ℕ) : ℚ) + 0) from rfl]
      rw [except_bindf_ok]
      rw [show ((0 : ℕ) : ℚ) + 0 = 0 by norm_num]
      exact desde_zero b2 p hb2 hb2'

/-- Witness for the amended C8: a whitespace-only input. -/
theorem c8_empty_converts_to_zero_witness : convertir [' '] 10 2 20 = .ok ['0'] :=
  c8_empty_converts_to_zero [' '] 10 2 20 (by decide) (by norm_num) (by norm_num)
    (by norm_num) (by norm_num)

/-! ### Well-formedness of every output (C10 machinery) -/

theorem mapME_ok_mem {ε α β : Type} {f : α → Except ε β} :
    ∀ {l : List α} {out : List β}, mapME f l = .ok out → ∀ b ∈ out, ∃ a ∈ l, f a = .ok b := by
  intro l
  induction l with
  | nil =>
    intro out h b hb
    rw [mapME] at h
    cases h
    cases hb
  | cons a l ih =>
    intro out h b hb
    rw [mapME] at h
    cases hfa : f a with
    | error e => rw [hfa, except_bind_error] at h; cases h
    | ok c =>
      rw [hfa, except_bind_ok] at h
      cases hml : mapME f l with
      | error e => rw [hml, except_bind_error] at h; cases h
      | ok cs =>
        rw [hml, except_bind_ok] at h
        cases h
        rcases List.mem_cons.mp hb with rfl | hb'
        · exact ⟨a, List.mem_cons_self a l, hfa⟩
        · obtain ⟨x, hx, hfx⟩ := ih hml b hb'
          exact ⟨x, List.mem_cons_of_mem a hx, hfx⟩

theorem simbolo_valor_ok_inv {v : ℕ} {c : Char} (h : simbolo_valor v = .ok c) :
    v < 16 ∧ c = simboloP v := by
  unfold simbolo_valor at h
  split at h
  · cases h
    refine ⟨by assumption, ?_⟩
    rw [simboloP, List.getD_eq_getElem?_getD, List.getElem?_eq_getElem (by assumption)]
    simp [List.get_eq_getElem]
  · cases h

theorem bitsVal_aux_lt : ∀ (l : List Char) (acc : ℕ),
    l.foldl (fun a c => 2 * a + (if c = '1' then 1 else 0)) acc < (acc + 1) * 2 ^ l.length := by
  intro l
  induction l with
  | nil => intro acc; simp
  | cons c r ih =>
    intro acc
    rw [List.foldl_cons, List.length_cons]
    calc r.foldl (fun a c => 2 * a + (if c = '1' then 1 else 0))
          (2 * acc + (if c = '1' then 1 else 0)) <
        (2 * acc + (if c = '1' then 1 else 0) + 1) * 2 ^ r.length := ih _
      _ ≤ (acc + 1) * 2 ^ (r.length + 1) := by
          rw [pow_succ]
          have : 2 * acc + (if c = '1' then 1 else 0) + 1 ≤ (acc + 1) * 2 := by
            split <;> omega
          calc (2 * acc + (if c = '1' then 1 else 0) + 1) * 2 ^ r.length ≤
              ((acc + 1) * 2) * 2 ^ r.length := Nat.mul_le_mul_right _ this
            _ = (acc + 1) * (2 ^ r.length * 2) := by ring

theorem bitsVal_lt (l : List Char) : bitsVal l < 2 ^ l.length := by
  have := bitsVal_aux_lt l 0
  simpa [bitsVal] using this

theorem chunkGo_mem_length {α : Type} (t : ℕ) :
    ∀ (fuel : ℕ) (l : List α) (g : List α), g ∈ chunkGo t fuel l → g.length ≤ t := by
  intro fuel
  induction fuel with
  | zero => intro l g hg; cases hg
  | succ fuel ih =>
    intro l g hg
    rw [chunkGo] at hg
    by_cases hl : l.isEmpty
    · rw [if_pos hl] at hg; cases hg
    · rw [if_neg hl] at hg
      rcases List.mem_cons.mp hg with rfl | hg'
      · simpa using List.length_take_le t l
      · exact ih _ g hg'

theorem chunk_mem_length {α : Type} {t : ℕ} {l : List α} {g : List α} (hg : g ∈ chunk t l) :
    g.length ≤ t := chunkGo_mem_length t l.length l g hg

theorem agrupar_mem_length {bits : List Char} {tam : ℕ} {iz : Bool} {g : List Char}
    (hg : g ∈ agrupar_binario bits tam iz) : g.length ≤ tam := by
  rw [agrupar_binario] at hg
  by_cases hb : bits = []
  · rw [if_pos hb] at hg; cases hg
  · rw [if_neg hb] at hg
    exact chunk_mem_length hg

theorem mem_lstripZerosOr0 {c : Char} {l : List Char} (h : c ∈ lstripZerosOr0 l) :
    c ∈ l ∨ c = '0' := by
  rw [lstripZerosOr0] at h
  by_cases he : l.dropWhile (· = '0') = []
  · rw [if_pos he] at h
    simp only [List.mem_singleton] at h
    exact Or.inr h
  · rw [if_neg he] at h
    exact Or.inl (List.dropWhile_subset _ h)

theorem mem_rstripZeros {c : Char} {l : List Char} (h : c ∈ rstripZeros l) : c ∈ l := by
  rw [rstripZeros, List.mem_reverse] at h
  exact List.mem_reverse.mp (List.dropWhile_subset _ h)

theorem count_dot_zero {l : List Char} (h : ∀ c ∈ l, c ≠ '.') : l.count '.' = 0 := by
  rw [List.count_eq_zero]
  intro hc
  exact h '.' hc rfl

theorem wf_no_dot {b : ℕ} {l : List Char}
    (h : ∀ c ∈ l, c ≠ '.' ∧ ∃ w, valor_simbolo c = .ok w ∧ w < b) :
    WellFormedOutput b l := by
  refine ⟨?_, fun c hc _ => (h c hc).2⟩
  rw [count_dot_zero (fun c hc => (h c hc).1)]
  omega

theorem wf_with_dot {b : ℕ} {e f : List Char}
    (he : ∀ c ∈ e, c ≠ '.' ∧ ∃ w, valor_simbolo c = .ok w ∧ w < b)
    (hf : ∀ c ∈ f, c ≠ '.' ∧ ∃ w, valor_simbolo c = .ok w ∧ w < b) :
    WellFormedOutput b (e ++ '.' :: f) := by
  constructor
  · rw [List.count_append, List.count_cons, count_dot_zero (fun c hc => (he c hc).1),
      count_dot_zero (fun c hc => (hf c hc).1)]
    simp
  · intro c hc hdot
    rcases List.mem_append.mp hc with hc' | hc'
    · exact (he c hc').2
    · rcases List.mem_cons.mp hc' with rfl | hc''
      · exact absurd rfl hdot
      · exact (hf c hc'').2

theorem good_char_zero {b : ℕ} (hb : 2 ≤ b) :
    ('0' : Char) ≠ '.' ∧ ∃ w, valor_simbolo '0' = .ok w ∧ w < b :=
  ⟨by decide, 0, by decide, by omega⟩

theorem good_char_simboloP {b w : ℕ} (hw : w < b) (hb16 : b ≤ 16) :
    simboloP w ≠ '.' ∧ ∃ u, valor_simbolo (simboloP w) = .ok u ∧ u < b :=
  ⟨simboloP_ne_dot w (by omega), w, valor_simboloP w (by omega), hw⟩

theorem bin_groups_good {b2 tam : ℕ} {groups : List (List Char)} {o : List Char}
    (hb2 : 2 ^ tam = b2) (hb16 : b2 ≤ 16)
    (hlen : ∀ g ∈ groups, g.length ≤ tam)
    (h : mapME (fun g => simbolo_valor (bitsVal g)) groups = .ok o) :
    ∀ c ∈ o, c ≠ '.' ∧ ∃ w, valor_simbolo c = .ok w ∧ w < b2 := by
  intro c hc
  obtain ⟨g, hg, hfg⟩ := mapME_ok_mem h c hc
  obtain ⟨h16, rfl⟩ := simbolo_valor_ok_inv hfg
  have hlt : bitsVal g < b2 := by
    have h1 : bitsVal g < 2 ^ g.length := bitsVal_lt g
    have h2 : (2 : ℕ) ^ g.length ≤ 2 ^ tam := Nat.pow_le_pow_right (by omega) (hlen g hg)
    omega
  exact good_char_simboloP hlt hb16

theorem bin_to_base_direct_wf {num : List Char} {b2 : ℕ} {out : List Char}
    (hb2 : b2 = 8 ∨ b2 = 16) (h : bin_to_base_direct num b2 = .ok out) :
    WellFormedOutput b2 out := by
  have hb16 : b2 ≤ 16 := by rcases hb2 with rfl | rfl <;> omega
  have hbt : 2 ^ (if b2 = 8 then 3 else 4) = b2 := by
    rcases hb2 with rfl | rfl <;> norm_num
  rw [bin_to_base_direct] at h
  rcases hsp : separar_partes num with ⟨ent0, frac⟩
  rw [hsp] at h
  dsimp only at h
  by_cases hv : ((if ent0 = [] then ['0'] else ent0) ++ frac).any fun c => ¬(c = '0' ∨ c = '1')
  · rw [if_pos hv] at h; cases h
  · rw [if_neg hv] at h
    cases hoe : mapME (fun g => simbolo_valor (bitsVal g))
        (agrupar_binario (if ent0 = [] then ['0'] else ent0) (if b2 = 8 then 3 else 4) true) with
    | error e => rw [hoe, except_bind_error] at h; cases h
    | ok oe =>
      rw [hoe, except_bind_ok] at h
      cases hog : mapME (fun g => simbolo_valor (bitsVal g))
          (agrupar_binario frac (if b2 = 8 then 3 else 4) false) with
      | error e => rw [hog, except_bind_error] at h; cases h
      | ok og =>
        rw [hog, except_bind_ok, except_pure_eq] at h
        cases h
        have hoe' := bin_groups_good hbt hb16 (fun g hg => agrupar_mem_length hg) hoe
        have hog' := bin_groups_good hbt hb16 (fun g hg => agrupar_mem_length hg) hog
        have hent : ∀ c ∈ lstripZerosOr0 (if oe = [] then ['0'] else oe),
            c ≠ '.' ∧ ∃ w, valor_simbolo c = .ok w ∧ w < b2 := by
          intro c hc
          rcases mem_lstripZerosOr0 hc with hc' | rfl
          · by_cases hoee : oe = []
            · rw [if_pos hoee] at hc'
              simp only [List.mem_singleton] at hc'
              subst hc'
              exact good_char_zero (by omega)
            · rw [if_neg hoee] at hc'
              exact hoe' c hc'
          · exact good_char_zero (by omega)
        by_cases hoge : og = []
        · rw [if_pos hoge]
          exact wf_no_dot hent
        · rw [if_neg hoge]
          by_cases hogs : rstripZeros og = []
          · rw [if_pos hogs]
            exact wf_no_dot hent
          · rw [if_neg hogs]
            exact wf_with_dot hent (fun c hc => hog' c (mem_rstripZeros hc))

theorem mem_natBits {c : Char} {v : ℕ} (h : c ∈ natBits v) : c = '0' ∨ c = '1' := by
  rw [natBits] at h
  by_cases hv : v = 0
  · rw [if_pos hv] at h
    simp only [List.mem_singleton] at h
    exact Or.inl h
  · rw [if_neg hv, List.mem_reverse] at h
    obtain ⟨d, _, rfl⟩ := List.mem_map.mp h
    rw [bitChar]
    by_cases hd : d = 1
    · rw [if_pos hd]; exact Or.inr rfl
    · rw [if_neg hd]; exact Or.inl rfl

theorem mem_toBitsPad {c : Char} {tam v : ℕ} (h : c ∈ toBitsPad tam v) : c = '0' ∨ c = '1' := by
  rw [toBitsPad, List.mem_append] at h
  rcases h with h | h
  · exact Or.inl (List.eq_of_mem_replicate h)
  · exact mem_natBits h

theorem good_char_bit {c : Char} (h : c = '0' ∨ c = '1') :
    c ≠ '.' ∧ ∃ w, valor_simbolo c = .ok w ∧ w < 2 := by
  rcases h with rfl | rfl
  · exact ⟨by decide, 0, by decide, by omega⟩
  · exact ⟨by decide, 1, by decide, by omega⟩

theorem dig_to_bits_ok {tam : ℕ} {c : Char} {l : List Char} (h : dig_to_bits tam c = .ok l) :
    ∃ v, valor_simbolo c = .ok v ∧ l = toBitsPad tam v := by
  rw [dig_to_bits] at h
  cases hv : valor_simbolo c with
  | error e => rw [hv, except_bind_error] at h; cases h
  | ok v =>
    rw [hv, except_bind_ok, except_pure_eq] at h
    cases h
    exact ⟨v, rfl, rfl⟩

theorem bits_flatten_good {tam : ℕ} {l : List Char} {os : List (List Char)}
    (h : mapME (dig_to_bits tam) l = .ok os) :
    ∀ c ∈ os.flatten, c ≠ '.' ∧ ∃ w, valor_simbolo c = .ok w ∧ w < 2 := by
  intro c hc
  obtain ⟨bl, hbl, hcbl⟩ := List.mem_flatten.mp hc
  obtain ⟨a, _, hfa⟩ := mapME_ok_mem h bl hbl
  obtain ⟨v, _, rfl⟩ := dig_to_bits_ok hfa
  exact good_char_bit (mem_toBitsPad hcbl)

theorem base_to_bin_direct_wf {num : List Char} {b1 : ℕ} {out : List Char}
    (h : base_to_bin_direct num b1 = .ok out) :
    WellFormedOutput 2 out := by
  rw [base_to_bin_direct] at h
  rcases hsp : separar_partes num with ⟨ent, frac⟩
  rw [hsp] at h
  dsimp only at h
  cases hvd : validar_digitos b1 (ent ++ frac) with
  | error e => rw [hvd, except_bind_error] at h; cases h
  | ok u =>
    rw [hvd, except_bind_ok] at h
    cases hoe : mapME (dig_to_bits (if b1 = 8 then 3 else 4)) ent with
    | error e => rw [hoe, except_bind_error] at h; cases h
    | ok oe =>
      rw [hoe, except_bind_ok] at h
      cases hog : mapME (dig_to_bits (if b1 = 8 then 3 else 4)) frac with
      | error e => rw [hog, except_bind_error] at h; cases h
      | ok og =>
        rw [hog, except_bind_ok, except_pure_eq] at h
        cases h
        have hoe' := bits_flatten_good hoe
        have hog' := bits_flatten_good hog
        have hent : ∀ c ∈ lstripZerosOr0 (if oe.flatten = [] then ['0'] else oe.flatten),
            c ≠ '.' ∧ ∃ w, valor_simbolo c = .ok w ∧ w < 2 := by
          intro c hc
          rcases mem_lstripZerosOr0 hc with hc' | rfl
          · by_cases hoee : oe.flatten = []
            · rw [if_pos hoee] at hc'
              simp only [List.mem_singleton] at hc'
              subst hc'
              exact good_char_zero (by omega)
            · rw [if_neg hoee] at hc'
              exact hoe' c hc'
          · exact good_char_zero (by omega)
        by_cases hoge : og.flatten = []
        · rw [if_pos hoge]
          exact wf_no_dot hent
        · rw [if_neg hoge]
          by_cases hogs : rstripZeros og.flatten = []
          · rw [if_pos hogs]
            exact wf_no_dot hent
          · rw [if_neg hogs]
            exact wf_with_dot hent (fun c hc => hog' c (mem_rstripZeros hc))

theorem desdeRender_wf (v : ℚ) (b p : ℕ) (hb : 2 ≤ b) (hb16 : b ≤ 16) :
    WellFormedOutput b (desdeRender v b p) := by
  obtain ⟨hfr0, hfr1⟩ := fract_bounds v
  have hent : ∀ c ∈ (if pyfloor v = 0 then ['0']
      else ((Nat.digits b (pyfloor v).toNat).map simboloP).reverse),
      c ≠ '.' ∧ ∃ w, valor_simbolo c = .ok w ∧ w < b := by
    intro c hc
    by_cases hz : pyfloor v = 0
    · rw [if_pos hz] at hc
      simp only [List.mem_singleton] at hc
      subst hc
      exact good_char_zero hb
    · rw [if_neg hz, List.mem_reverse] at hc
      obtain ⟨d, hd, rfl⟩ := List.mem_map.mp hc
      exact good_char_simboloP (Nat.digits_lt_base (by omega) hd) hb16
  rw [desdeRender]
  by_cases hfe : (fracExpand b p (v - ((pyfloor v) : ℚ))).1 = []
  · rw [if_pos hfe, List.append_nil]
    exact wf_no_dot hent
  · rw [if_neg hfe]
    refine wf_with_dot hent ?_
    intro c hc
    obtain ⟨d, hd, rfl⟩ := List.mem_map.mp hc
    exact good_char_simboloP ((fracExpand_spec b hb p _ hfr0 hfr1).1 d hd) hb16

theorem convertir_wf {num : List Char} {b1 b2 p : ℕ} {out : List Char}
    (h : convertir num b1 b2 p = .ok out) :
    WellFormedOutput b2 out := by
  have h1 : 2 ≤ b1 ∧ b1 ≤ 16 := by
    by_contra hc
    rw [convertir, validar_base_invalid hc, except_bind_error] at h
    cases h
  have h2 : 2 ≤ b2 ∧ b2 ≤ 16 := by
    by_contra hc
    rw [convertir, validar_base_valid h1, except_bind_ok, validar_base_invalid hc,
      except_bind_error] at h
    cases h
  rw [convertir_eq_checked num b1 b2 p h1 h2] at h
  by_cases hd1 : b1 = 2 ∧ (b2 = 8 ∨ b2 = 16)
  · rw [if_pos hd1] at h
    exact bin_to_base_direct_wf hd1.2 h
  · rw [if_neg hd1] at h
    by_cases hd2 : b2 = 2 ∧ (b1 = 8 ∨ b1 = 16)
    · rw [if_pos hd2] at h
      rw [hd2.1]
      exact base_to_bin_direct_wf h
    · rw [if_neg hd2] at h
      cases hdec : a_decimal_fraction (limpiar_numero num) b1 with
      | error e => rw [hdec, except_bindf_error] at h; cases h
      | ok v =>
        rw [hdec, except_bindf_ok] at h
        rw [desde_eq v b2 p h2.1 h2.2] at h
        cases h
        exact desdeRender_wf v b2 p h2.1 h2.2

/-- **C10.** Every successful conversion returns a well-formed numeral for the
target base: at most one `'.'` separator, and every other character is a
symbol of `"0123456789ABCDEF"` whose digit value is strictly below the target
base. -/
theorem c10_output_wellformed (num : List Char) (b1 b2 p : ℕ) (out : List Char)
    (h : convertir num b1 b2 p = .ok out) :
    out.count '.' ≤ 1 ∧ ∀ c ∈ out, c ≠ '.' → ∃ w, valor_simbolo c = .ok w ∧ w < b2 :=
  convertir_wf h

/-- Witness for C10: `"5"` from base 10 to base 2 (output `"101"`). -/
theorem c10_output_wellformed_witness :
    (['1', '0', '1'] : List Char).count '.' ≤ 1 ∧
      ∀ c ∈ (['1', '0', '1'] : List Char), c ≠ '.' →
        ∃ w, valor_simbolo c = .ok w ∧ w < 2 :=
  c10_output_wellformed ['5'] 10 2 20 ['1', '0', '1'] (by
    rw [convertir_eq_checked ['5'] 10 2 20 (by omega) (by omega), if_neg (by omega),
      if_neg (by omega)]
    rw [show limpiar_numero ['5'] = ['5'] from by decide]
    rw [show a_decimal_fraction ['5'] 10 = .ok (((5 : ℕ) : ℚ) + 0) from rfl]
    rw [except_bindf_ok]
    rw [show ((5 : ℕ) : ℚ) + 0 = ((5 : ℕ) : ℚ) by norm_num]
    rw [desde_eq _ _ _ (by omega) (by omega)]
    congr 1
    rw [desdeRender, if_neg (by rw [pyfloor_natCast]; omega)]
    rw [show ((5 : ℕ) : ℚ) - ((pyfloor ((5 : ℕ) : ℚ)) : ℚ) = 0 by
      rw [pyfloor_natCast]; push_cast; ring, fracExpand_zero]
    rw [pyfloor_natCast]
    have hdg : Nat.digits 2 (((5 : ℕ) : ℤ)).toNat = [1, 0, 1] := by
      rw [← divDigits_eq_digits 2 (by omega)]
      decide
    rw [hdg]
    decide)

/-! ### Rendered digit lists and stripping -/

theorem mapME_charDigit_render {b : ℕ} :
    ∀ {l : List Char} {ds : List ℕ}, mapME (charDigit b) l = .ok ds →
      l = ds.map simboloP ∧ ∀ d ∈ ds, d < b := by
  intro l
  induction l with
  | nil =>
    intro ds h
    rw [mapME] at h
    cases h
    exact ⟨rfl, by simp⟩
  | cons c r ih =>
    intro ds h
    rw [mapME] at h
    cases hc : charDigit b c with
    | error e => rw [hc, except_bind_error] at h; cases h
    | ok v =>
      rw [hc, except_bind_ok] at h
      cases hm : mapME (charDigit b) r with
      | error e => rw [hm, except_bind_error] at h; cases h
      | ok vs =>
        rw [hm, except_bind_ok] at h
        cases h
        obtain ⟨hval, hlt⟩ := charDigit_ok hc
        obtain ⟨h16, hsim, _⟩ := valor_simbolo_ok hval
        obtain ⟨hr, hrs⟩ := ih hm
        refine ⟨?_, ?_⟩
        · rw [List.map_cons, hsim, ← hr]
        · intro d hd
          rcases List.mem_cons.mp hd with rfl | hd'
          · exact hlt
          · exact hrs d hd'

theorem ofDigits_eq_zero_iff (b : ℕ) (hb : 1 ≤ b) :
    ∀ L : List ℕ, (Nat.ofDigits b L = 0 ↔ ∀ d ∈ L, d = 0) := by
  intro L
  induction L with
  | nil => simp [Nat.ofDigits_nil]
  | cons d L ih =>
    rw [Nat.ofDigits_cons]
    constructor
    · intro h
      have hd : d = 0 := by omega
      have hL : b * Nat.ofDigits b L = 0 := by omega
      have : Nat.ofDigits b L = 0 := by
        rcases Nat.mul_eq_zero.mp hL with h' | h'
        · omega
        · exact h'
      intro x hx
      rcases List.mem_cons.mp hx with rfl | hx'
      · exact hd
      · exact ih.mp this x hx'
    · intro h
      rw [h d (List.mem_cons_self d L), ih.mpr (fun x hx => h x (List.mem_cons_of_mem d hx))]
      simp

theorem rstrip_cons (c : Char) (l : List Char) :
    rstripZeros (c :: l) =
      if rstripZeros l = [] then (if c = '0' then [] else [c])
      else c :: rstripZeros l := by
  unfold rstripZeros
  rw [List.reverse_cons, List.dropWhile_append]
  by_cases hemp : (l.reverse.dropWhile (· = '0')) = []
  · rw [if_pos (by simp [hemp]), if_pos (by simp [hemp])]
    by_cases hc : c = '0'
    · subst hc; simp
    · simp [hc]
  · rw [if_neg (by simp [hemp]), if_neg (by simp [hemp])]
    simp

theorem rstrip_eq_nil_iff (l : List Char) : rstripZeros l = [] ↔ ∀ c ∈ l, c = '0' := by
  unfold rstripZeros
  rw [List.reverse_eq_nil_iff, List.dropWhile_eq_nil_iff]
  constructor
  · intro h c hc
    simpa using h c (List.mem_reverse.mpr hc)
  · intro h c hc
    simpa using h c (List.mem_reverse.mp hc)

theorem rstrip_map_simboloP : ∀ (ds : List ℕ), (∀ d ∈ ds, d < 16) →
    rstripZeros (ds.map simboloP) = (dropTrailZerosN ds).map simboloP := by
  intro ds
  induction ds with
  | nil => intro _; rfl
  | cons d ds ih =>
    intro h
    have hd : d < 16 := h d (List.mem_cons_self d ds)
    have htail : ∀ x ∈ ds, x < 16 := fun x hx => h x (List.mem_cons_of_mem d hx)
    rw [List.map_cons, rstrip_cons, dtzN_cons, ih htail]
    have hiff : (dropTrailZerosN ds).map simboloP = [] ↔ dropTrailZerosN ds = [] := by
      simp
    by_cases hemp : dropTrailZerosN ds = []
    · rw [if_pos (hiff.mpr hemp), if_pos hemp]
      by_cases hz : d = 0
      · subst hz
        rw [if_pos (by decide), if_pos rfl]
        rfl
      · rw [if_neg (fun hc => hz ((simboloP_eq_zero_iff d hd).mp hc)), if_neg hz]
        rfl
    · rw [if_neg (fun hc => hemp (hiff.mp hc)), if_neg hemp, List.map_cons]

theorem lstrip_map_simboloP : ∀ (ms : List ℕ), (∀ d ∈ ms, d < 16) →
    (ms.map simboloP).dropWhile (· = '0') = (ms.dropWhile (· = 0)).map simboloP := by
  intro ms
  induction ms with
  | nil => intro _; rfl
  | cons d ms ih =>
    intro h
    have hd : d < 16 := h d (List.mem_cons_self d ms)
    have htail : ∀ x ∈ ms, x < 16 := fun x hx => h x (List.mem_cons_of_mem d hx)
    rw [List.map_cons, List.dropWhile_cons, List.dropWhile_cons]
    by_cases hz : d = 0
    · subst hz
      rw [if_pos (by simp; decide), if_pos (by simp), ih htail]
    · rw [if_neg (by simp; exact fun hc => hz ((simboloP_eq_zero_iff d hd).mp hc)),
        if_neg (by simp [hz]), List.map_cons]

theorem lstrip_render (b : ℕ) (hb : 2 ≤ b) (hb16 : b ≤ 16) (L : List ℕ)
    (hlt : ∀ d ∈ L, d < b) :
    lstripZerosOr0 (L.map simboloP) =
      if Nat.ofDigits b L.reverse = 0 then ['0']
      else ((Nat.digits b (Nat.ofDigits b L.reverse)).map simboloP).reverse := by
  have h16 : ∀ d ∈ L, d < 16 := fun d hd => by have := hlt d hd; omega
  rw [lstripZerosOr0, lstrip_map_simboloP L h16]
  have hdig : Nat.digits b (Nat.ofDigits b L.reverse) = dropTrailZerosN L.reverse :=
    digits_ofDigits_dtzN b hb L.reverse (fun d hd => hlt d (List.mem_reverse.mp hd))
  have hdw : L.dropWhile (· = 0) = (dropTrailZerosN L.reverse).reverse := by
    unfold dropTrailZerosN
    rw [List.reverse_reverse, List.reverse_reverse]
  by_cases hz : Nat.ofDigits b L.reverse = 0
  · rw [if_pos hz]
    have hall : ∀ d ∈ L, d = 0 := by
      intro d hd
      exact (ofDigits_eq_zero_iff b (by omega) L.reverse).mp hz d (List.mem_reverse.mpr hd)
    have hnil : L.dropWhile (· = 0) = [] := by
      rw [List.dropWhile_eq_nil_iff]
      intro d hd
      simpa using hall d hd
    rw [hnil]
    simp
  · rw [if_neg hz, hdig]
    have hne : dropTrailZerosN L.reverse ≠ [] := by
      intro hc
      apply hz
      rw [(ofDigits_eq_zero_iff b (by omega) L.reverse)]
      exact (dtzN_eq_nil_iff L.reverse).mp hc
    rw [if_neg]
    · rw [hdw, ← List.map_reverse]
    · rw [hdw]
      simp [hne]

/-! ### Printing a parsed numeral reproduces it up to zero-stripping -/

theorem a_decimal_ok_struct {n : List Char} {b : ℕ} {v : ℚ} (hb : 2 ≤ b)
    (hclean : limpiar_numero n = n)
    (hparse : a_decimal_fraction n b = .ok v) :
    ∃ es fs,
      (separar_partes n).1 = (es.map simboloP).reverse ∧
      (separar_partes n).2 = fs.map simboloP ∧
      (∀ d ∈ es, d < b) ∧ (∀ d ∈ fs, d < b) ∧
      v = ((Nat.ofDigits b es : ℕ) : ℚ) + fracVal b fs := by
  obtain ⟨es, fs, hes, hfs, hval⟩ := a_decimal_ok (by omega) hparse
  rw [hclean] at hes hfs
  obtain ⟨he1, he2⟩ := mapME_charDigit_render hes
  obtain ⟨hf1, hf2⟩ := mapME_charDigit_render hfs
  refine ⟨es, fs, ?_, hf1, he2, hf2, hval⟩
  rw [← he1, List.reverse_reverse]

theorem canon_print (n : List Char) (b q : ℕ) (v : ℚ)
    (hb : 2 ≤ b) (hb16 : b ≤ 16)
    (hclean : limpiar_numero n = n)
    (hparse : a_decimal_fraction n b = .ok v)
    (hq : (rstripZeros (separar_partes n).2).length ≤ q) :
    desde_decimal_fraction v b q = .ok (normalizeZeros n) := by
  obtain ⟨es, fs, hE, hF, hes, hfs, hval⟩ := a_decimal_ok_struct hb hclean hparse
  rw [desde_eq v b q hb hb16]
  congr 1
  have hfs16 : ∀ d ∈ fs, d < 16 := fun d hd => by have := hfs d hd; omega
  have hfsv0 : 0 ≤ fracVal b fs := fracVal_nonneg b fs
  have hfsv1 : fracVal b fs < 1 := fracVal_lt_one b (by omega) fs hfs
  have hpf : pyfloor v = ((Nat.ofDigits b es : ℕ) : ℤ) := by
    rw [hval]
    have h := pyfloor_add_int ((Nat.ofDigits b es : ℕ) : ℤ) (fracVal b fs) hfsv0 hfsv1
    rw [← h]
    congr 1
  have hcast : (((Nat.ofDigits b es : ℕ) : ℤ) : ℚ) = ((Nat.ofDigits b es : ℕ) : ℚ) := by
    norm_cast
  have hfract : v - ((pyfloor v) : ℚ) = fracVal b fs := by
    rw [hpf, hval, hcast]
    ring
  have hqlen : (dropTrailZerosN fs).length ≤ q := by
    rw [hF, rstrip_map_simboloP fs hfs16] at hq
    simpa using hq
  have hexp : fracExpand b q (v - ((pyfloor v) : ℚ)) = (dropTrailZerosN fs, 0) := by
    rw [hfract]
    exact fracExpand_fracVal b hb fs q hfs hqlen
  have hrender_ent : lstripZerosOr0 ((es.map simboloP).reverse) =
      (if pyfloor v = 0 then ['0']
       else ((Nat.digits b (pyfloor v).toNat).map simboloP).reverse) := by
    rw [← List.map_reverse,
      lstrip_render b hb hb16 es.reverse (fun d hd => hes d (List.mem_reverse.mp hd)),
      List.reverse_reverse]
    by_cases hz : Nat.ofDigits b es = 0
    · rw [if_pos hz, if_pos (by rw [hpf, hz]; simp)]
    · rw [if_neg hz, if_neg (by rw [hpf]; exact_mod_cast hz)]
      rw [hpf]
      simp
  simp only [normalizeZeros]
  rw [hE, hF, rstrip_map_simboloP fs hfs16, desdeRender, hexp, hrender_ent]
  dsimp only
  by_cases hfe : dropTrailZerosN fs = []
  · rw [hfe]
    simp
  · have hfe2 : ¬(List.map simboloP (dropTrailZerosN fs) = []) := by simp [hfe]
    rw [if_neg hfe, if_neg hfe2]

/-! ### Positional values of bit strings and digit blocks -/

theorem fracVal_eq_ofDigits (b : ℕ) (hb : 0 < b) :
    ∀ ds : List ℕ, fracVal b ds =
      ((Nat.ofDigits b ds.reverse : ℕ) : ℚ) / (b : ℚ) ^ ds.length := by
  intro ds
  induction ds with
  | nil => simp [fracVal_nil]
  | cons d ds ih =>
    rw [fracVal_cons, ih, List.reverse_cons, Nat.ofDigits_append]
    have hb0 : (b : ℚ) ≠ 0 := by exact_mod_cast hb.ne'
    rw [Nat.ofDigits_singleton, List.length_reverse, List.length_cons]
    push_cast
    field_simp
    ring

theorem bitsVal_go (l : List Char) :
    ∀ a : ℕ, l.foldl (fun a c => 2 * a + (if c = '1' then 1 else 0)) a =
      a * 2 ^ l.length + Nat.ofDigits 2 (l.map bitVal).reverse := by
  induction l with
  | nil => intro a; simp [Nat.ofDigits_nil]
  | cons c l ih =>
    intro a
    rw [List.foldl_cons, ih, List.map_cons, List.reverse_cons, Nat.ofDigits_append]
    rw [Nat.ofDigits_singleton, List.length_reverse, List.length_map, List.length_cons]
    show (2 * a + bitVal c) * 2 ^ l.length + Nat.ofDigits 2 (l.map bitVal).reverse = _
    ring

theorem bitsVal_eq_ofDigits (l : List Char) :
    bitsVal l = Nat.ofDigits 2 (l.map bitVal).reverse := by
  rw [bitsVal, bitsVal_go]
  simp

theorem bitsVal_append (xs ys : List Char) :
    bitsVal (xs ++ ys) = bitsVal xs * 2 ^ ys.length + bitsVal ys := by
  rw [bitsVal_eq_ofDigits, bitsVal_eq_ofDigits, bitsVal_eq_ofDigits, List.map_append,
    List.reverse_append, Nat.ofDigits_append, List.length_reverse, List.length_map]
  ring

theorem bitsVal_cons_zero (l : List Char) : bitsVal ('0' :: l) = bitsVal l := by
  rw [bitsVal, bitsVal, List.foldl_cons]
  congr 1

theorem bitsVal_replicate : ∀ k : ℕ, bitsVal (List.replicate k '0') = 0 := by
  intro k
  induction k with
  | zero => rfl
  | succ k ih => rw [List.replicate_succ, bitsVal_cons_zero, ih]

theorem flatten_length_const {α : Type} (t : ℕ) :
    ∀ gs : List (List α), (∀ g ∈ gs, g.length = t) → gs.flatten.length = t * gs.length := by
  intro gs
  induction gs with
  | nil => intro _; simp
  | cons g gs ih =>
    intro h
    rw [List.flatten_cons, List.length_append, ih (fun x hx => h x (List.mem_cons_of_mem g hx)),
      h g (List.mem_cons_self g gs), List.length_cons]
    ring

theorem groups_bitsVal (t : ℕ) :
    ∀ gs : List (List Char), (∀ g ∈ gs, g.length = t) →
      Nat.ofDigits (2 ^ t) (gs.map bitsVal).reverse = bitsVal gs.flatten := by
  intro gs
  induction gs with
  | nil => intro _; rfl
  | cons g gs ih =>
    intro h
    rw [List.map_cons, List.reverse_cons, Nat.ofDigits_append,
      ih (fun x hx => h x (List.mem_cons_of_mem g hx)), Nat.ofDigits_singleton,
      List.flatten_cons, bitsVal_append, List.length_reverse, List.length_map,
      flatten_length_const t gs (fun x hx => h x (List.mem_cons_of_mem g hx)), ← pow_mul]
    ring

theorem groups_fracVal (t : ℕ) (ht : 0 < t) (gs : List (List Char))
    (hg : ∀ g ∈ gs, g.length = t) :
    fracVal (2 ^ t) (gs.map bitsVal) = fracVal 2 (gs.flatten.map bitVal) := by
  rw [fracVal_eq_ofDigits (2 ^ t) (Nat.pos_pow_of_pos t (by omega)),
    fracVal_eq_ofDigits 2 (by omega), ← List.map_reverse, ← List.map_reverse,
    List.map_reverse, groups_bitsVal t gs hg, List.map_reverse, ← bitsVal_eq_ofDigits,
    List.length_map, List.length_map, flatten_length_const t gs hg]
  push_cast
  rw [← pow_mul]

/-! ### Chunking: block lengths and flattening -/

theorem chunkGo_flatten {α : Type} (t : ℕ) (ht : 0 < t) :
    ∀ (fuel : ℕ) (l : List α), l.length ≤ fuel → (chunkGo t fuel l).flatten = l := by
  intro fuel
  induction fuel with
  | zero =>
    intro l hl
    have : l = [] := List.eq_nil_of_length_eq_zero (by omega)
    subst this
    rfl
  | succ fuel ih =>
    intro l hl
    rw [chunkGo]
    by_cases he : l.isEmpty
    · rw [if_pos he]
      have : l = [] := by simpa using he
      simp [this]
    · rw [if_neg he]
      have hne : l ≠ [] := by simpa using he
      have hpos : 1 ≤ l.length := List.length_pos.mpr hne
      rw [List.flatten_cons, ih (l.drop t) (by rw [List.length_drop]; omega)]
      exact List.take_append_drop t l

theorem chunkGo_exact {α : Type} (t : ℕ) (ht : 0 < t) :
    ∀ (fuel : ℕ) (l : List α), l.length ≤ fuel → t ∣ l.length →
      ∀ g ∈ chunkGo t fuel l, g.length = t := by
  intro fuel
  induction fuel with
  | zero => intro l _ _ g hg; cases hg
  | succ fuel ih =>
    intro l hl hd g hg
    rw [chunkGo] at hg
    by_cases he : l.isEmpty
    · rw [if_pos he] at hg; cases hg
    · rw [if_neg he] at hg
      have hne : l ≠ [] := by simpa using he
      have hpos : 1 ≤ l.length := List.length_pos.mpr hne
      have htle : t ≤ l.length := Nat.le_of_dvd (by omega) hd
      rcases List.mem_cons.mp hg with rfl | hg'
      · rw [List.length_take]; omega
      · exact ih (l.drop t) (by rw [List.length_drop]; omega)
          (by rw [List.length_drop]; exact Nat.dvd_sub' hd dvd_rfl) g hg'

theorem agrupar_spec (bits : List Char) (tam : ℕ) (iz : Bool) (ht : 0 < tam) :
    ∃ k, k < tam ∧
      (∀ g ∈ agrupar_binario bits tam iz, g.length = tam) ∧
      (agrupar_binario bits tam iz).flatten =
        (if iz then List.replicate k '0' ++ bits else bits ++ List.replicate k '0') := by
  rw [agrupar_binario]
  by_cases hb : bits = []
  · rw [if_pos hb]
    exact ⟨0, ht, by simp, by cases iz <;> simp [hb]⟩
  · rw [if_neg hb]
    dsimp only
    have hmod := Nat.div_add_mod bits.length tam
    have hmlt : bits.length % tam < tam := Nat.mod_lt _ ht
    by_cases hr0 : bits.length % tam ≠ 0
    · rw [if_pos hr0]
      set bits' : List Char :=
        (if iz = true then List.replicate (tam - bits.length % tam) '0' ++ bits
         else bits ++ List.replicate (tam - bits.length % tam) '0') with hbits'
      have hlen' : bits'.length = bits.length + (tam - bits.length % tam) := by
        rw [hbits']
        cases iz <;> simp [List.length_replicate] <;> omega
      have hdvd : tam ∣ bits'.length := by
        refine ⟨bits.length / tam + 1, ?_⟩
        rw [hlen', Nat.mul_add, Nat.mul_one]
        omega
      refine ⟨tam - bits.length % tam, by omega, ?_, ?_⟩
      · intro g hg
        exact chunkGo_exact tam ht bits'.length bits' le_rfl hdvd g hg
      · rw [chunk, chunkGo_flatten tam ht bits'.length bits' le_rfl, hbits']
    · rw [if_neg hr0]
      have hdvd : tam ∣ bits.length := by
        refine ⟨bits.length / tam, ?_⟩
        omega
      refine ⟨0, ht, ?_, ?_⟩
      · intro g hg
        exact chunkGo_exact tam ht bits.length bits le_rfl hdvd g hg
      · rw [chunk, chunkGo_flatten tam ht bits.length bits le_rfl]
        cases iz <;> simp

/-! ### A stripped digit-pair rendering is exactly a `desdeRender` -/

theorem renderPair_eq_desdeRender (b p : ℕ) (hb : 2 ≤ b) (hb16 : b ≤ 16)
    (es fs : List ℕ) (hes : ∀ d ∈ es, d < b) (hfs : ∀ d ∈ fs, d < b)
    (hp : (dropTrailZerosN fs).length ≤ p) :
    lstripZerosOr0 (es.map simboloP) ++
      (if rstripZeros (fs.map simboloP) = [] then []
       else '.' :: rstripZeros (fs.map simboloP)) =
    desdeRender (((Nat.ofDigits b es.reverse : ℕ) : ℚ) + fracVal b fs) b p := by
  have hfs16 : ∀ d ∈ fs, d < 16 := fun d hd => by have := hfs d hd; omega
  set v : ℚ := ((Nat.ofDigits b es.reverse : ℕ) : ℚ) + fracVal b fs with hv
  have hfsv0 : 0 ≤ fracVal b fs := fracVal_nonneg b fs
  have hfsv1 : fracVal b fs < 1 := fracVal_lt_one b (by omega) fs hfs
  have hpf : pyfloor v = ((Nat.ofDigits b es.reverse : ℕ) : ℤ) := by
    rw [hv]
    have h := pyfloor_add_int ((Nat.ofDigits b es.reverse : ℕ) : ℤ) (fracVal b fs) hfsv0 hfsv1
    rw [← h]
    congr 1
  have hcast : (((Nat.ofDigits b es.reverse : ℕ) : ℤ) : ℚ) =
      ((Nat.ofDigits b es.reverse : ℕ) : ℚ) := by norm_cast
  have hfract : v - ((pyfloor v) : ℚ) = fracVal b fs := by
    rw [hpf, hv, hcast]
    ring
  have hexp : fracExpand b p (v - ((pyfloor v) : ℚ)) = (dropTrailZerosN fs, 0) := by
    rw [hfract]
    exact fracExpand_fracVal b hb fs p hfs hp
  have hrender_ent : lstripZerosOr0 (es.map simboloP) =
      (if pyfloor v = 0 then ['0']
       else ((Nat.digits b (pyfloor v).toNat).map simboloP).reverse) := by
    rw [lstrip_render b hb hb16 es hes]
    by_cases hz : Nat.ofDigits b es.reverse = 0
    · rw [if_pos hz, if_pos (by rw [hpf, hz]; simp)]
    · rw [if_neg hz, if_neg (by rw [hpf]; exact_mod_cast hz)]
      rw [hpf]
      simp
  rw [desdeRender, hexp, hrender_ent, rstrip_map_simboloP fs hfs16]
  dsimp only
  by_cases hfe : dropTrailZerosN fs = []
  · rw [hfe]
    simp
  · have hfe2 : ¬(List.map simboloP (dropTrailZerosN fs) = []) := by simp [hfe]
    rw [if_neg hfe, if_neg hfe2]

/-! ### Bit characters and their rendered digit values -/

theorem simboloP_bit : ∀ d : ℕ, d < 2 → simboloP d = '0' ∨ simboloP d = '1' := by decide

theorem bitVal_simboloP : ∀ d : ℕ, d < 2 → bitVal (simboloP d) = d := by decide

theorem map_bitVal_simboloP (ds : List ℕ) (h : ∀ d ∈ ds, d < 2) :
    (ds.map simboloP).map bitVal = ds := by
  rw [List.map_map,
    List.map_congr_left (fun d hd => show (bitVal ∘ simboloP) d = id d from
      bitVal_simboloP d (h d hd))]
  exact List.map_id ds

theorem bitsVal_render (es : List ℕ) (h : ∀ d ∈ es, d < 2) :
    bitsVal ((es.map simboloP).reverse) = Nat.ofDigits 2 es := by
  rw [bitsVal_eq_ofDigits, ← List.map_reverse, List.reverse_reverse,
    map_bitVal_simboloP es h]

theorem fracVal_replicate_zero (b : ℕ) (hb : 1 ≤ b) (k : ℕ) :
    fracVal b (List.replicate k 0) = 0 :=
  (fracVal_eq_zero_iff b hb _).mpr (fun d hd => List.eq_of_mem_replicate hd)

/-! ### The two fast paths print the same string as the general path -/

theorem out_shape (oE oF : List Char) :
    (if oF = [] then oE else if rstripZeros oF = [] then oE else oE ++ '.' :: rstripZeros oF) =
    oE ++ (if rstripZeros oF = [] then [] else '.' :: rstripZeros oF) := by
  by_cases h1 : oF = []
  · subst h1
    rw [if_pos rfl]
    have h0 : rstripZeros ([] : List Char) = [] := rfl
    rw [h0, if_pos rfl, List.append_nil]
  · rw [if_neg h1]
    by_cases h2 : rstripZeros oF = []
    · rw [if_pos h2, if_pos h2, List.append_nil]
    · rw [if_neg h2, if_neg h2]

theorem map_symbol_bitsVal (gs : List (List Char)) :
    gs.map (fun g => simboloP (bitsVal g)) = (gs.map bitsVal).map simboloP := by
  rw [List.map_map]
  exact List.map_congr_left (fun g _ => rfl)

theorem bin_to_base_eq (m : List Char) (b2 p : ℕ) (h2 : b2 = 8 ∨ b2 = 16)
    (hclean : limpiar_numero m = m) {v : ℚ}
    (hparse : a_decimal_fraction m 2 = .ok v)
    (hp : (separar_partes m).2.length ≤ (if b2 = 8 then 3 else 4) * p) :
    bin_to_base_direct m b2 = .ok (desdeRender v b2 p) := by
  obtain ⟨es, fs, hE, hF, hes, hfs, hval⟩ := a_decimal_ok_struct (by omega) hclean hparse
  have hb2l : 2 ≤ b2 := by rcases h2 with rfl | rfl <;> omega
  have hb16 : b2 ≤ 16 := by rcases h2 with rfl | rfl <;> omega
  have hsep : separar_partes m = ((es.map simboloP).reverse, fs.map simboloP) := by
    rw [← hE, ← hF]
  rw [hsep] at hp
  rw [bin_to_base_direct, hsep]
  dsimp only
  set t : ℕ := if b2 = 8 then 3 else 4 with htdef
  have hbt : 2 ^ t = b2 := by rw [htdef]; rcases h2 with rfl | rfl <;> norm_num
  have ht : 0 < t := by rw [htdef]; rcases h2 with rfl | rfl <;> norm_num
  set ENT : List Char :=
    if (es.map simboloP).reverse = [] then ['0'] else (es.map simboloP).reverse with hENT
  have hbitsENT : ∀ c ∈ ENT, c = '0' ∨ c = '1' := by
    intro c hc
    rw [hENT] at hc
    by_cases hE0 : (es.map simboloP).reverse = []
    · rw [if_pos hE0] at hc
      simp only [List.mem_singleton] at hc
      exact Or.inl hc
    · rw [if_neg hE0, List.mem_reverse] at hc
      obtain ⟨d, hd, rfl⟩ := List.mem_map.mp hc
      exact simboloP_bit d (hes d hd)
  have hbitsF : ∀ c ∈ fs.map simboloP, c = '0' ∨ c = '1' := by
    intro c hc
    obtain ⟨d, hd, rfl⟩ := List.mem_map.mp hc
    exact simboloP_bit d (hfs d hd)
  have hcond : ¬(((ENT ++ fs.map simboloP).any fun c => ¬(c = '0' ∨ c = '1')) = true) := by
    rw [List.any_eq_true]
    rintro ⟨c, hc, hcp⟩
    have hb : c = '0' ∨ c = '1' := by
      rcases List.mem_append.mp hc with h | h
      · exact hbitsENT c h
      · exact hbitsF c h
    rcases hb with rfl | rfl <;> revert hcp <;> decide
  obtain ⟨k1, hk1, hglen1, hgflat1⟩ := agrupar_spec ENT t true ht
  obtain ⟨k2, hk2, hglen2, hgflat2⟩ := agrupar_spec (fs.map simboloP) t false ht
  have hgflat1' : (agrupar_binario ENT t true).flatten = List.replicate k1 '0' ++ ENT := by
    rw [hgflat1, if_pos rfl]
  have hgflat2' : (agrupar_binario (fs.map simboloP) t false).flatten =
      fs.map simboloP ++ List.replicate k2 '0' := by
    rw [hgflat2, if_neg (by decide)]
  have hblt : ∀ (gs : List (List Char)), (∀ g ∈ gs, g.length = t) →
      ∀ g ∈ gs, bitsVal g < b2 := by
    intro gs hgs g hg
    have h1 : bitsVal g < 2 ^ g.length := bitsVal_lt g
    rw [hgs g hg, hbt] at h1
    exact h1
  have hmap1 : mapME (fun g => simbolo_valor (bitsVal g)) (agrupar_binario ENT t true) =
      .ok ((agrupar_binario ENT t true).map (fun g => simboloP (bitsVal g))) :=
    mapME_ok_of_forall (fun g hg => simbolo_valor_eq_simboloP _ (by
      have := hblt _ hglen1 g hg; omega))
  have hmap2 : mapME (fun g => simbolo_valor (bitsVal g))
      (agrupar_binario (fs.map simboloP) t false) =
      .ok ((agrupar_binario (fs.map simboloP) t false).map (fun g => simboloP (bitsVal g))) :=
    mapME_ok_of_forall (fun g hg => simbolo_valor_eq_simboloP _ (by
      have := hblt _ hglen2 g hg; omega))
  have hENTval : bitsVal ENT = Nat.ofDigits 2 es := by
    rw [hENT]
    by_cases hE0 : (es.map simboloP).reverse = []
    · rw [if_pos hE0]
      have hnil : es = [] := by simpa using hE0
      subst hnil
      decide
    · rw [if_neg hE0]
      exact bitsVal_render es hes
  have hNval : Nat.ofDigits b2 ((agrupar_binario ENT t true).map bitsVal).reverse =
      Nat.ofDigits 2 es := by
    rw [← hbt, groups_bitsVal t _ hglen1, hgflat1', bitsVal_append, bitsVal_replicate,
      Nat.zero_mul, Nat.zero_add, hENTval]
  have hb0 : bitVal '0' = 0 := by decide
  have hFval : fracVal b2 ((agrupar_binario (fs.map simboloP) t false).map bitsVal) =
      fracVal 2 fs := by
    rw [← hbt, groups_fracVal t ht _ hglen2, hgflat2', List.map_append,
      map_bitVal_simboloP fs hfs, List.map_replicate, hb0,
      fracVal_append 2 (by omega), fracVal_replicate_zero 2 (by omega), zero_div, add_zero]
  rw [List.length_map] at hp
  have hcnt : (agrupar_binario (fs.map simboloP) t false).length ≤ p := by
    have hfl := flatten_length_const t _ hglen2
    rw [hgflat2', List.length_append, List.length_map, List.length_replicate] at hfl
    by_contra hc
    push_neg at hc
    have h3 : t * (p + 1) ≤ t * (agrupar_binario (fs.map simboloP) t false).length :=
      Nat.mul_le_mul_left t hc
    rw [Nat.mul_add, Nat.mul_one] at h3
    omega
  have hprec : (dropTrailZerosN ((agrupar_binario (fs.map simboloP) t false).map bitsVal)).length
      ≤ p := by
    refine le_trans (dtzN_length_le _) ?_
    rw [List.length_map]
    exact hcnt
  have hes' : ∀ d ∈ (agrupar_binario ENT t true).map bitsVal, d < b2 := by
    intro d hd
    obtain ⟨g, hg, rfl⟩ := List.mem_map.mp hd
    exact hblt _ hglen1 g hg
  have hfs' : ∀ d ∈ (agrupar_binario (fs.map simboloP) t false).map bitsVal, d < b2 := by
    intro d hd
    obtain ⟨g, hg, rfl⟩ := List.mem_map.mp hd
    exact hblt _ hglen2 g hg
  have hveq : ((Nat.ofDigits b2 ((agrupar_binario ENT t true).map bitsVal).reverse : ℕ) : ℚ) +
      fracVal b2 ((agrupar_binario (fs.map simboloP) t false).map bitsVal) = v := by
    rw [hNval, hFval, hval]
  have hlstrip : lstripZerosOr0
      (if (agrupar_binario ENT t true).map (fun g => simboloP (bitsVal g)) = [] then ['0']
       else (agrupar_binario ENT t true).map (fun g => simboloP (bitsVal g))) =
      lstripZerosOr0 (((agrupar_binario ENT t true).map bitsVal).map simboloP) := by
    rw [← map_symbol_bitsVal]
    by_cases h0 : (agrupar_binario ENT t true).map (fun g => simboloP (bitsVal g)) = []
    · rw [if_pos h0, h0]
      decide
    · rw [if_neg h0]
  rw [if_neg hcond, hmap1, except_bind_ok, hmap2, except_bind_ok, except_pure_eq]
  congr 1
  rw [out_shape, hlstrip, map_symbol_bitsVal (agrupar_binario (fs.map simboloP) t false),
    renderPair_eq_desdeRender b2 p hb2l hb16 _ _ hes' hfs' hprec, hveq]

theorem simboloP_bitVal : ∀ c : Char, c = '0' ∨ c = '1' → simboloP (bitVal c) = c := by
  rintro c (rfl | rfl) <;> decide

theorem map_simboloP_bitVal (l : List Char) (h : ∀ c ∈ l, c = '0' ∨ c = '1') :
    (l.map bitVal).map simboloP = l := by
  rw [List.map_map,
    List.map_congr_left (fun c hc => show (simboloP ∘ bitVal) c = id c from
      simboloP_bitVal c (h c hc))]
  exact List.map_id l

theorem lstrip_if_nil (X : List Char) :
    lstripZerosOr0 (if X = [] then ['0'] else X) = lstripZerosOr0 X := by
  by_cases h : X = []
  · rw [if_pos h, h]
    decide
  · rw [if_neg h]

theorem digits_two_len_le {v t : ℕ} (hv : v < 2 ^ t) : (Nat.digits 2 v).length ≤ t := by
  by_cases hv0 : v = 0
  · subst hv0
    simp
  · by_contra hc
    push_neg at hc
    have h1 : 2 ^ (Nat.digits 2 v).length ≤ 2 * v :=
      Nat.base_pow_length_digits_le 2 v (by norm_num) hv0
    have h2 : 2 ^ (t + 1) ≤ 2 ^ (Nat.digits 2 v).length :=
      Nat.pow_le_pow_right (by norm_num) hc
    rw [pow_succ] at h2
    omega

theorem natBits_length_le {v t : ℕ} (ht : 0 < t) (hv : v < 2 ^ t) :
    (natBits v).length ≤ t := by
  rw [natBits]
  by_cases hv0 : v = 0
  · rw [if_pos hv0]
    simpa using ht
  · rw [if_neg hv0, List.length_reverse, List.length_map, divDigits_eq_digits 2 (by omega)]
    exact digits_two_len_le hv

theorem bitVal_bitChar : ∀ d : ℕ, d < 2 → bitVal (bitChar d) = d := by decide

theorem bitsVal_natBits (v : ℕ) : bitsVal (natBits v) = v := by
  rw [natBits]
  by_cases hv0 : v = 0
  · rw [if_pos hv0, hv0]
    decide
  · rw [if_neg hv0, divDigits_eq_digits 2 (by omega), bitsVal_eq_ofDigits,
      ← List.map_reverse, List.reverse_reverse, List.map_map,
      List.map_congr_left (fun d hd => show (bitVal ∘ bitChar) d = id d from
        bitVal_bitChar d (Nat.digits_lt_base (by norm_num) hd)),
      List.map_id]
    exact Nat.ofDigits_digits 2 v

theorem toBitsPad_length {t v : ℕ} (ht : 0 < t) (hv : v < 2 ^ t) :
    (toBitsPad t v).length = t := by
  rw [toBitsPad, List.length_append, List.length_replicate]
  have := natBits_length_le ht hv
  omega

theorem bitsVal_toBitsPad {t v : ℕ} (hv : v < 2 ^ t) :
    bitsVal (toBitsPad t v) = v := by
  rw [toBitsPad, bitsVal_append, bitsVal_replicate, Nat.zero_mul, Nat.zero_add,
    bitsVal_natBits]

theorem validar_digitos_ok (b : ℕ) :
    ∀ l : List Char, (∀ c ∈ l, c = '.' ∨ ∃ w, valor_simbolo c = .ok w ∧ w < b) →
      validar_digitos b l = .ok () := by
  intro l
  induction l with
  | nil => intro _; rfl
  | cons c r ih =>
    intro h
    rw [validar_digitos]
    by_cases hc : c = '.'
    · rw [if_pos hc]
      exact ih (fun x hx => h x (List.mem_cons_of_mem c hx))
    · rw [if_neg hc]
      rcases h c (List.mem_cons_self c r) with hdot | ⟨w, hw, hwb⟩
      · exact absurd hdot hc
      · rw [hw, except_bind_ok, if_neg (by omega)]
        exact ih (fun x hx => h x (List.mem_cons_of_mem c hx))

theorem mapME_digToBits (t b : ℕ) (hb : b ≤ 16) :
    ∀ L : List ℕ, (∀ d ∈ L, d < b) →
      mapME (dig_to_bits t) (L.map simboloP) = .ok (L.map (toBitsPad t)) := by
  intro L
  induction L with
  | nil => intro _; rfl
  | cons d L ih =>
    intro h
    have hd : d < 16 := lt_of_lt_of_le (h d (List.mem_cons_self d L)) hb
    rw [List.map_cons, mapME, dig_to_bits, valor_simboloP d hd, except_bind_ok,
      except_pure_eq, except_bind_ok, ih (fun x hx => h x (List.mem_cons_of_mem d hx)),
      except_bind_ok, except_pure_eq, List.map_cons]

theorem base_to_bin_eq (m : List Char) (b1 p : ℕ) (h1 : b1 = 8 ∨ b1 = 16)
    (hclean : limpiar_numero m = m) {v : ℚ}
    (hparse : a_decimal_fraction m b1 = .ok v)
    (hp : (if b1 = 8 then 3 else 4) * (separar_partes m).2.length ≤ p) :
    base_to_bin_direct m b1 = .ok (desdeRender v 2 p) := by
  have hb1l : 2 ≤ b1 := by rcases h1 with rfl | rfl <;> omega
  have hb116 : b1 ≤ 16 := by rcases h1 with rfl | rfl <;> omega
  obtain ⟨es, fs, hE, hF, hes, hfs, hval⟩ := a_decimal_ok_struct hb1l hclean hparse
  have hsep : separar_partes m = ((es.map simboloP).reverse, fs.map simboloP) := by
    rw [← hE, ← hF]
  rw [hsep] at hp
  rw [base_to_bin_direct, hsep]
  dsimp only
  set t : ℕ := if b1 = 8 then 3 else 4 with htdef
  have hbt : 2 ^ t = b1 := by rw [htdef]; rcases h1 with rfl | rfl <;> norm_num
  have ht : 0 < t := by rw [htdef]; rcases h1 with rfl | rfl <;> norm_num
  have hvd : validar_digitos b1 ((es.map simboloP).reverse ++ fs.map simboloP) = .ok () := by
    apply validar_digitos_ok
    intro c hc
    right
    rcases List.mem_append.mp hc with h | h
    · rw [List.mem_reverse] at h
      obtain ⟨d, hd, rfl⟩ := List.mem_map.mp h
      exact ⟨d, valor_simboloP d (by have := hes d hd; omega), hes d hd⟩
    · obtain ⟨d, hd, rfl⟩ := List.mem_map.mp h
      exact ⟨d, valor_simboloP d (by have := hfs d hd; omega), hfs d hd⟩
  have hErev : (es.map simboloP).reverse = es.reverse.map simboloP := by
    rw [List.map_reverse]
  have hmap1 : mapME (dig_to_bits t) ((es.map simboloP).reverse) =
      .ok (es.reverse.map (toBitsPad t)) := by
    rw [hErev]
    exact mapME_digToBits t b1 hb116 es.reverse (fun d hd => hes d (List.mem_reverse.mp hd))
  have hmap2 : mapME (dig_to_bits t) (fs.map simboloP) = .ok (fs.map (toBitsPad t)) :=
    mapME_digToBits t b1 hb116 fs hfs
  have hlen1 : ∀ g ∈ es.reverse.map (toBitsPad t), g.length = t := by
    intro g hg
    obtain ⟨d, hd, rfl⟩ := List.mem_map.mp hg
    exact toBitsPad_length ht (by rw [hbt]; exact hes d (List.mem_reverse.mp hd))
  have hlen2 : ∀ g ∈ fs.map (toBitsPad t), g.length = t := by
    intro g hg
    obtain ⟨d, hd, rfl⟩ := List.mem_map.mp hg
    exact toBitsPad_length ht (by rw [hbt]; exact hfs d hd)
  have hbits1 : ∀ c ∈ (es.reverse.map (toBitsPad t)).flatten, c = '0' ∨ c = '1' := by
    intro c hc
    obtain ⟨g, hg, hcg⟩ := List.mem_flatten.mp hc
    obtain ⟨d, _, rfl⟩ := List.mem_map.mp hg
    exact mem_toBitsPad hcg
  have hbits2 : ∀ c ∈ (fs.map (toBitsPad t)).flatten, c = '0' ∨ c = '1' := by
    intro c hc
    obtain ⟨g, hg, hcg⟩ := List.mem_flatten.mp hc
    obtain ⟨d, _, rfl⟩ := List.mem_map.mp hg
    exact mem_toBitsPad hcg
  have hmapval1 : (es.reverse.map (toBitsPad t)).map bitsVal = es.reverse := by
    rw [List.map_map,
      List.map_congr_left (fun d hd => show (bitsVal ∘ toBitsPad t) d = id d from
        bitsVal_toBitsPad (by rw [hbt]; exact hes d (List.mem_reverse.mp hd)))]
    exact List.map_id _
  have hmapval2 : (fs.map (toBitsPad t)).map bitsVal = fs := by
    rw [List.map_map,
      List.map_congr_left (fun d hd => show (bitsVal ∘ toBitsPad t) d = id d from
        bitsVal_toBitsPad (by rw [hbt]; exact hfs d hd))]
    exact List.map_id _
  have hNval : Nat.ofDigits 2 (((es.reverse.map (toBitsPad t)).flatten.map bitVal)).reverse =
      Nat.ofDigits b1 es := by
    rw [← bitsVal_eq_ofDigits, ← groups_bitsVal t _ hlen1, hmapval1, List.reverse_reverse, hbt]
  have hFval : fracVal 2 ((fs.map (toBitsPad t)).flatten.map bitVal) = fracVal b1 fs := by
    rw [← groups_fracVal t ht _ hlen2, hmapval2, hbt]
  have hes2 : ∀ d ∈ (es.reverse.map (toBitsPad t)).flatten.map bitVal, d < 2 := by
    intro d hd
    obtain ⟨c, hc, rfl⟩ := List.mem_map.mp hd
    rcases hbits1 c hc with rfl | rfl <;> decide
  have hfs2 : ∀ d ∈ (fs.map (toBitsPad t)).flatten.map bitVal, d < 2 := by
    intro d hd
    obtain ⟨c, hc, rfl⟩ := List.mem_map.mp hd
    rcases hbits2 c hc with rfl | rfl <;> decide
  have hprec : (dropTrailZerosN ((fs.map (toBitsPad t)).flatten.map bitVal)).length ≤ p := by
    refine le_trans (dtzN_length_le _) ?_
    rw [List.length_map, flatten_length_const t _ hlen2, List.length_map]
    rw [List.length_map] at hp
    exact hp
  have hveq : ((Nat.ofDigits 2
        ((es.reverse.map (toBitsPad t)).flatten.map bitVal).reverse : ℕ) : ℚ) +
      fracVal 2 ((fs.map (toBitsPad t)).flatten.map bitVal) = v := by
    rw [hNval, hFval, hval]
  rw [hvd, except_bind_ok, hmap1, except_bind_ok, hmap2, except_bind_ok, except_pure_eq]
  congr 1
  rw [out_shape, lstrip_if_nil,
    ← map_simboloP_bitVal ((es.reverse.map (toBitsPad t)).flatten) hbits1,
    ← map_simboloP_bitVal ((fs.map (toBitsPad t)).flatten) hbits2,
    renderPair_eq_desdeRender 2 p (le_refl 2) (by norm_num) _ _ hes2 hfs2 hprec, hveq]

/-! ### Normalization is idempotent -/

theorem toNat_ofNat_valid (k : ℕ) (h : k < 55296) : (Char.ofNat k).toNat = k := by
  rw [Char.ofNat, dif_pos (Or.inl h)]
  rfl

theorem toUpper_spec (c : Char) : Char.toUpper c =
    if c.toNat ≥ 97 ∧ c.toNat ≤ 122 then Char.ofNat (c.toNat - 32) else c := rfl

theorem toNat_toUpper (c : Char) :
    (Char.toUpper c).toNat =
      if c.toNat ≥ 97 ∧ c.toNat ≤ 122 then c.toNat - 32 else c.toNat := by
  rw [toUpper_spec]
  by_cases h : c.toNat ≥ 97 ∧ c.toNat ≤ 122
  · rw [if_pos h, if_pos h, toNat_ofNat_valid _ (by omega)]
  · rw [if_neg h, if_neg h]

theorem toUpper_idem (c : Char) : Char.toUpper (Char.toUpper c) = Char.toUpper c := by
  rw [toUpper_spec (Char.toUpper c), toNat_toUpper c]
  by_cases h : c.toNat ≥ 97 ∧ c.toNat ≤ 122
  · rw [if_pos h, if_neg (by omega)]
  · rw [if_neg h, if_neg h]

theorem eq_char_iff_toNat {c d : Char} : c = d ↔ c.toNat = d.toNat :=
  ⟨fun h => by rw [h], fun h => by rw [← Char.ofNat_toNat c, h, Char.ofNat_toNat]⟩

theorem isWhitespace_iff (c : Char) : c.isWhitespace = true ↔
    (c.toNat = 32 ∨ c.toNat = 9 ∨ c.toNat = 13 ∨ c.toNat = 10) := by
  simp only [Char.isWhitespace, Bool.or_eq_true, decide_eq_true_eq]
  rw [@eq_char_iff_toNat c ' ', @eq_char_iff_toNat c '\t', @eq_char_iff_toNat c '\r',
    @eq_char_iff_toNat c '\n']
  have h1 : (' ' : Char).toNat = 32 := rfl
  have h2 : ('\t' : Char).toNat = 9 := rfl
  have h3 : ('\r' : Char).toNat = 13 := rfl
  have h4 : ('\n' : Char).toNat = 10 := rfl
  rw [h1, h2, h3, h4]
  tauto

theorem isWhitespace_toUpper (c : Char) :
    (Char.toUpper c).isWhitespace = c.isWhitespace := by
  by_cases h : c.toNat ≥ 97 ∧ c.toNat ≤ 122
  · have h1 : (Char.toUpper c).toNat = c.toNat - 32 := by rw [toNat_toUpper, if_pos h]
    have hf1 : ¬((Char.toUpper c).isWhitespace = true) := fun hb => by
      have hw := (isWhitespace_iff _).mp hb
      rw [h1] at hw
      omega
    have hf2 : ¬(c.isWhitespace = true) := fun hb => by
      have hw := (isWhitespace_iff _).mp hb
      omega
    rw [Bool.not_eq_true] at hf1 hf2
    rw [hf1, hf2]
  · rw [toUpper_spec, if_neg h]

theorem isWhitespace_replComma (c : Char) :
    (replComma c).isWhitespace = c.isWhitespace := by
  rw [replComma]
  by_cases h : c = ','
  · rw [if_pos h, h]
    decide
  · rw [if_neg h]

theorem clean_char_idem (c : Char) :
    replComma (Char.toUpper (replComma (Char.toUpper c))) = replComma (Char.toUpper c) := by
  by_cases h : Char.toUpper c = ','
  · have hin : replComma (Char.toUpper c) = '.' := by rw [replComma, if_pos h]
    rw [hin]
    decide
  · have hin : replComma (Char.toUpper c) = Char.toUpper c := by rw [replComma, if_neg h]
    rw [hin, toUpper_idem]
    exact hin

theorem dropWhile_map_ws (f : Char → Char)
    (hf : ∀ c, (f c).isWhitespace = c.isWhitespace) :
    ∀ l : List Char, (l.map f).dropWhile Char.isWhitespace =
      (l.dropWhile Char.isWhitespace).map f := by
  intro l
  induction l with
  | nil => rfl
  | cons c l ih =>
    rw [List.map_cons, List.dropWhile_cons, List.dropWhile_cons, hf c]
    by_cases h : c.isWhitespace
    · rw [if_pos h, if_pos h, ih]
    · rw [if_neg h, if_neg h, List.map_cons]

theorem pystrip_map (f : Char → Char)
    (hf : ∀ c, (f c).isWhitespace = c.isWhitespace) (l : List Char) :
    pystrip (l.map f) = (pystrip l).map f := by
  rw [pystrip, pystrip, dropWhile_map_ws f hf, ← List.map_reverse,
    dropWhile_map_ws f hf, ← List.map_reverse]

theorem pystrip_idem (l : List Char) : pystrip (pystrip l) = pystrip l := by
  have h2 : (pystrip l).reverse.dropWhile Char.isWhitespace = (pystrip l).reverse := by
    rw [pystrip, List.reverse_reverse]
    exact List.dropWhile_idempotent _ _
  have h1 : (pystrip l).dropWhile Char.isWhitespace = pystrip l := by
    have hx : (l.dropWhile Char.isWhitespace).dropWhile Char.isWhitespace =
        l.dropWhile Char.isWhitespace := List.dropWhile_idempotent _ _
    have hsplit : pystrip l ++
        ((l.dropWhile Char.isWhitespace).reverse.takeWhile Char.isWhitespace).reverse =
        l.dropWhile Char.isWhitespace := by
      rw [pystrip, ← List.reverse_append, List.takeWhile_append_dropWhile,
        List.reverse_reverse]
    cases hy : pystrip l with
    | nil => rfl
    | cons c y =>
      rw [hy, List.cons_append] at hsplit
      by_cases hcw : c.isWhitespace
      · exfalso
        have h3 := hx
        rw [← hsplit, List.dropWhile_cons, if_pos hcw] at h3
        have hlen := congrArg List.length h3
        rw [List.length_cons] at hlen
        have hle := (List.dropWhile_sublist (p := Char.isWhitespace)
          (l := y ++ ((l.dropWhile Char.isWhitespace).reverse.takeWhile
            Char.isWhitespace).reverse)).length_le
        omega
      · rw [List.dropWhile_cons, if_neg hcw]
  rw [pystrip, h1, h2, List.reverse_reverse]

theorem limpiar_idem (l : List Char) :
    limpiar_numero (limpiar_numero l) = limpiar_numero l := by
  rw [limpiar_numero, limpiar_numero, pystrip_map replComma isWhitespace_replComma,
    pystrip_map Char.toUpper isWhitespace_toUpper, pystrip_idem,
    List.map_map, List.map_map, List.map_map, List.map_map]
  exact List.map_congr_left (fun c _ => clean_char_idem c)

/-! ### The general path on an already-normalized numeral -/

theorem a_decimal_limpiar (x : List Char) (b : ℕ) :
    a_decimal_fraction (limpiar_numero x) b = a_decimal_fraction x b := by
  rw [a_decimal_fraction, a_decimal_fraction, limpiar_idem]

theorem general_ok (num : List Char) (b1 b2 p : ℕ) (v : ℚ) (hb2 : 2 ≤ b2) (hb16 : b2 ≤ 16)
    (hv : a_decimal_fraction num b1 = .ok v) :
    general_decimal_intermediate num b1 b2 p = .ok (desdeRender v b2 p) := by
  rw [general_decimal_intermediate, a_decimal_limpiar, hv, except_bind_ok,
    desde_eq v b2 p hb2 hb16]

/-! ### The binary expansion of a negative power of two -/

theorem fracExpand_pow2 : ∀ (p k : ℕ), p < k →
    fracExpand 2 p ((1 : ℚ) / 2 ^ k) = (List.replicate p 0, (1 : ℚ) / 2 ^ (k - p)) := by
  intro p
  induction p with
  | zero =>
    intro k _
    rw [fracExpand, Nat.sub_zero]
    rfl
  | succ p ih =>
    intro k hk
    have hz : (1 : ℚ) / 2 ^ k ≠ 0 := by positivity
    have h2k : (2 : ℚ) ^ k = 2 * 2 ^ (k - 1) := by
      rw [← pow_succ']
      congr 1
      omega
    have hmul : (1 : ℚ) / 2 ^ k * ((2 : ℕ) : ℚ) = 1 / 2 ^ (k - 1) := by
      push_cast
      rw [h2k]
      field_simp
    have hone : (1 : ℚ) / 2 ^ (k - 1) < 1 := by
      rw [div_lt_one (by positivity)]
      exact one_lt_pow (by norm_num) (by omega)
    have hd : pyfloor ((1 : ℚ) / 2 ^ k * ((2 : ℕ) : ℚ)) = 0 := by
      rw [hmul]
      apply pyfloor_eval
      · push_cast
        positivity
      · push_cast
        linarith
    have hfr : (1 : ℚ) / 2 ^ k * ((2 : ℕ) : ℚ) - (((0 : ℤ) : ℚ)) = 1 / 2 ^ (k - 1) := by
      rw [hmul, Int.cast_zero, sub_zero]
    rw [fracExpand_step 2 p _ hz 0 (1 / 2 ^ (k - 1)) hd hfr, ih (k - 1) (by omega),
      Int.toNat_zero, show k - 1 - p = k - (p + 1) from by omega, ← List.replicate_succ]

/-! ### Direct path versus general path (C6) -/

theorem parse_0000001_oct : a_decimal_fraction ['0', '.', '0', '0', '0', '0', '0', '0', '1'] 8 =
    .ok ((1 : ℚ) / 2 ^ 21) := by
  have h := @a_decimal_ok_of ['0', '.', '0', '0', '0', '0', '0', '0', '1'] 8
    [0] [0, 0, 0, 0, 0, 0, 1] (by omega) (by decide) (by decide)
  rw [h]
  congr 1
  have h0 : ((Nat.ofDigits 8 [0] : ℕ) : ℚ) = 0 := by norm_num [Nat.ofDigits]
  rw [h0, zero_add]
  simp only [fracVal_cons, fracVal_nil]
  norm_num

theorem general_0000001_oct :
    general_decimal_intermediate ['0', '.', '0', '0', '0', '0', '0', '0', '1'] 8 2 20 =
      .ok ('0' :: '.' :: List.replicate 20 '0') := by
  rw [general_ok _ 8 2 20 _ (by omega) (by omega) parse_0000001_oct]
  congr 1
  rw [desdeRender]
  have hpf : pyfloor ((1 : ℚ) / 2 ^ 21) = 0 := pyfloor_eval (by positivity) (by norm_num)
  rw [hpf, if_pos rfl, Int.cast_zero, sub_zero, fracExpand_pow2 20 21 (by omega)]
  dsimp only
  have hne : ¬(List.replicate 20 (0 : ℕ) = []) := by simp
  rw [if_neg hne, List.map_replicate]
  rfl

theorem direct_0000001_oct :
    convertir ['0', '.', '0', '0', '0', '0', '0', '0', '1'] 8 2 20 =
      .ok ('0' :: '.' :: (List.replicate 20 '0' ++ ['1'])) := by
  rw [convertir_eq_base_direct _ 8 20 (Or.inl rfl)]
  decide

/-- **C6.** Amended direct/general agreement: for every base pair served by the
bit-grouping fast path and every input numeral that parses in the source base,
the fast path's output string equals the general decimal-intermediate path's
output, provided the precision is large enough to cover every fractional digit
of the input (3 or 4 binary digits per source digit and vice versa). Without
that proviso the claim is false: the general path truncates at `precision`
fractional digits while the fast path never truncates (see the
counterexample). -/
theorem c6_direct_general_agree (num : List Char) (b1 b2 p : ℕ) (v : ℚ)
    (helig : eligiblePair b1 b2)
    (hv : a_decimal_fraction num b1 = .ok v)
    (hprec : enoughPrec b1 b2 (separar_partes (limpiar_numero num)).2.length p) :
    convertir num b1 b2 p = general_decimal_intermediate num b1 b2 p := by
  have hvl : a_decimal_fraction (limpiar_numero num) b1 = .ok v := by
    rw [a_decimal_limpiar]
    exact hv
  rcases hprec with ⟨rfl, rfl, hf⟩ | ⟨rfl, rfl, hf⟩ | ⟨rfl, rfl, hf⟩ | ⟨rfl, rfl, hf⟩
  · rw [convertir_eq_bin_direct num 8 p (Or.inl rfl),
      bin_to_base_eq (limpiar_numero num) 8 p (Or.inl rfl) (limpiar_idem num) hvl
        (by simpa using hf),
      general_ok num 2 8 p v (by omega) (by omega) hv]
  · rw [convertir_eq_bin_direct num 16 p (Or.inr rfl),
      bin_to_base_eq (limpiar_numero num) 16 p (Or.inr rfl) (limpiar_idem num) hvl
        (by simpa using hf),
      general_ok num 2 16 p v (by omega) (by omega) hv]
  · rw [convertir_eq_base_direct num 8 p (Or.inl rfl),
      base_to_bin_eq (limpiar_numero num) 8 p (Or.inl rfl) (limpiar_idem num) hvl
        (by simpa using hf),
      general_ok num 8 2 p v (by omega) (by omega) hv]
  · rw [convertir_eq_base_direct num 16 p (Or.inr rfl),
      base_to_bin_eq (limpiar_numero num) 16 p (Or.inr rfl) (limpiar_idem num) hvl
        (by simpa using hf),
      general_ok num 16 2 p v (by omega) (by omega) hv]

theorem c6_direct_general_agree_witness :
    convertir ['0', '.', '1'] 2 8 20 = general_decimal_intermediate ['0', '.', '1'] 2 8 20 :=
  c6_direct_general_agree ['0', '.', '1'] 2 8 20
    (((Nat.ofDigits 2 [0] : ℕ) : ℚ) + fracVal 2 [1])
    (Or.inl ⟨rfl, Or.inl rfl⟩)
    (@a_decimal_ok_of ['0', '.', '1'] 2 [0] [1] (by omega) (by decide) (by decide))
    (Or.inl ⟨rfl, rfl, by decide⟩)

/-- The unamended C6 is false: `"0.0000001"` is a valid base-8 numeral on the
eligible pair `8 → 2`, yet with the default precision 20 the fast path returns
`"0."` followed by twenty zeros and a one, while the general path truncates to
`"0."` followed by twenty zeros. -/
theorem c6_counterexample :
    eligiblePair 8 2 ∧
    (∃ v, a_decimal_fraction ['0', '.', '0', '0', '0', '0', '0', '0', '1'] 8 = .ok v) ∧
    convertir ['0', '.', '0', '0', '0', '0', '0', '0', '1'] 8 2 20 ≠
      general_decimal_intermediate ['0', '.', '0', '0', '0', '0', '0', '0', '1'] 8 2 20 := by
  refine ⟨Or.inr ⟨rfl, Or.inl rfl⟩, ⟨_, parse_0000001_oct⟩, ?_⟩
  rw [direct_0000001_oct, general_0000001_oct]
  decide

/-! ### Round trips (C5) -/

theorem parse_01_ter : a_decimal_fraction ['0', '.', '1'] 3 = .ok ((1 : ℚ) / 3) := by
  rw [@a_decimal_ok_of ['0', '.', '1'] 3 [0] [1] (by omega) (by decide) (by decide)]
  congr 1
  simp only [fracVal_cons, fracVal_nil]
  norm_num [Nat.ofDigits]

theorem fracExpand_third : ∀ p : ℕ,
    fracExpand 10 p ((1 : ℚ) / 3) = (List.replicate p 3, (1 : ℚ) / 3) := by
  intro p
  induction p with
  | zero => rfl
  | succ p ih =>
    have hd : pyfloor ((1 : ℚ) / 3 * ((10 : ℕ) : ℚ)) = 3 := by
      apply pyfloor_eval <;> push_cast <;> norm_num
    have hx : (1 : ℚ) / 3 * ((10 : ℕ) : ℚ) - ((3 : ℤ) : ℚ) = (1 : ℚ) / 3 := by
      push_cast
      norm_num
    rw [fracExpand_step 10 p _ (by norm_num) 3 _ hd hx, ih,
      show ((3 : ℤ)).toNat = 3 from rfl, ← List.replicate_succ]

/-- **C5.** Amended round trip: if `n` parses in base `b1` to the value `v`,
converting it to base `b2` gives `out1`, and the precision was sufficient in
the sense that `out1` parses back to exactly `v` (which holds precisely when
the base-`b2` expansion terminated within `p` digits), then converting `out1`
back to base `b1` with enough output precision reproduces the trailing-zero
normalization of the cleaned input. Without the exactness proviso the claim is
false for every precision (see the counterexample). -/
theorem c5_round_trip (n : List Char) (b1 b2 p q : ℕ) (v : ℚ) (out1 : List Char)
    (hb1 : 2 ≤ b1) (hb1w : b1 ≤ 16) (hb2 : 2 ≤ b2) (hb2w : b2 ≤ 16)
    (hv : a_decimal_fraction n b1 = .ok v)
    (hfwd : convertir n b1 b2 p = .ok out1)
    (hexact : a_decimal_fraction out1 b2 = .ok v)
    (hq : (rstripZeros (separar_partes (limpiar_numero n)).2).length ≤ q) :
    convertir out1 b2 b1 q = .ok (normalizeZeros (limpiar_numero n)) := by
  have hvl : a_decimal_fraction (limpiar_numero n) b1 = .ok v := by
    rw [a_decimal_limpiar]
    exact hv
  have hexl : a_decimal_fraction (limpiar_numero out1) b2 = .ok v := by
    rw [a_decimal_limpiar]
    exact hexact
  have hcanonQ : ∀ m, q ≤ m → desde_decimal_fraction v b1 m =
      .ok (normalizeZeros (limpiar_numero n)) := fun m hm =>
    canon_print (limpiar_numero n) b1 m v hb1 hb1w (limpiar_idem n) hvl (le_trans hq hm)
  set Q := q + 4 * (separar_partes (limpiar_numero out1)).2.length with hQ
  by_cases hd1 : b2 = 2 ∧ (b1 = 8 ∨ b1 = 16)
  · obtain ⟨rfl, h1⟩ := hd1
    have hdir := bin_to_base_eq (limpiar_numero out1) b1 Q h1 (limpiar_idem out1) hexl
      (by rcases h1 with rfl | rfl <;> simp <;> omega)
    have hrender : desdeRender v b1 Q = normalizeZeros (limpiar_numero n) := by
      have h2' := hcanonQ Q (by omega)
      rw [desde_eq v b1 Q hb1 hb1w] at h2'
      exact Except.ok.inj h2'
    rw [convertir_eq_bin_direct out1 b1 q h1, hdir, hrender]
  · by_cases hd2 : b1 = 2 ∧ (b2 = 8 ∨ b2 = 16)
    · obtain ⟨rfl, h2⟩ := hd2
      have hdir := base_to_bin_eq (limpiar_numero out1) b2 Q h2 (limpiar_idem out1) hexl
        (by rcases h2 with rfl | rfl <;> simp <;> omega)
      have hrender : desdeRender v 2 Q = normalizeZeros (limpiar_numero n) := by
        have h2' := hcanonQ Q (by omega)
        rw [desde_eq v 2 Q hb1 hb1w] at h2'
        exact Except.ok.inj h2'
      rw [convertir_eq_base_direct out1 b2 q h2, hdir, hrender]
    · have hrender : desdeRender v b1 q = normalizeZeros (limpiar_numero n) := by
        have h2' := hcanonQ q le_rfl
        rw [desde_eq v b1 q hb1 hb1w] at h2'
        exact Except.ok.inj h2'
      rw [convertir_eq_general out1 b2 b1 q ⟨hb2, hb2w⟩ ⟨hb1, hb1w⟩ hd1 hd2,
        general_ok out1 b2 b1 q v hb1 hb1w hexact, hrender]

theorem parse_01_bin_val : a_decimal_fraction ['0', '.', '1'] 2 =
    .ok (((Nat.ofDigits 2 [0] : ℕ) : ℚ) + fracVal 2 [1]) :=
  @a_decimal_ok_of ['0', '.', '1'] 2 [0] [1] (by omega) (by decide) (by decide)

theorem val_01_bin : ((Nat.ofDigits 2 [0] : ℕ) : ℚ) + fracVal 2 [1] = 1 / 2 := by
  simp only [fracVal_cons, fracVal_nil]
  norm_num [Nat.ofDigits]

theorem conv_01_bin_dec : convertir ['0', '.', '1'] 2 10 3 = .ok ['0', '.', '5'] := by
  have hp : a_decimal_fraction ['0', '.', '1'] 2 = .ok ((1 : ℚ) / 2) := by
    rw [parse_01_bin_val, val_01_bin]
  rw [convertir_eq_general _ 2 10 3 (by omega) (by omega) (by decide) (by decide),
    general_ok _ 2 10 3 ((1 : ℚ) / 2) (by omega) (by omega) hp]
  have h1 := desde_eq ((1 : ℚ) / 2) 10 3 (by omega) (by omega)
  rw [desde_half] at h1
  rw [← Except.ok.inj h1]

theorem c5_round_trip_witness :
    convertir ['0', '.', '5'] 10 2 1 = .ok (normalizeZeros (limpiar_numero ['0', '.', '1'])) :=
  c5_round_trip ['0', '.', '1'] 2 10 3 1
    (((Nat.ofDigits 2 [0] : ℕ) : ℚ) + fracVal 2 [1]) ['0', '.', '5']
    (by omega) (by omega) (by omega) (by omega)
    parse_01_bin_val
    (by rw [conv_01_bin_dec])
    (by
      rw [@a_decimal_ok_of ['0', '.', '5'] 10 [0] [5] (by omega) (by decide) (by decide)]
      congr 1
      rw [val_01_bin]
      simp only [fracVal_cons, fracVal_nil]
      norm_num [Nat.ofDigits])
    (by decide)

theorem no_round_trip_third :
    ∀ (p q : ℕ) (out1 out2 : List Char),
      convertir ['0', '.', '1'] 3 10 p = .ok out1 →
      convertir out1 10 3 q = .ok out2 →
      out2 ≠ normalizeZeros ['0', '.', '1'] := by
  intro p q out1 out2 h1 h2 hcontra
  have hfwd : convertir ['0', '.', '1'] 3 10 p = .ok (desdeRender ((1 : ℚ) / 3) 10 p) := by
    rw [convertir_eq_general _ 3 10 p (by omega) (by omega) (by decide) (by decide),
      general_ok _ 3 10 p _ (by omega) (by omega) parse_01_ter]
  have hout1 : out1 = desdeRender ((1 : ℚ) / 3) 10 p := by
    rw [h1] at hfwd
    exact Except.ok.inj hfwd
  have hpf3 : pyfloor ((1 : ℚ) / 3) = 0 := pyfloor_eval (by norm_num) (by norm_num)
  have hparse1 : a_decimal_fraction out1 10 =
      .ok ((1 : ℚ) / 3 - ((1 : ℚ) / 3) / 10 ^ p) := by
    rw [hout1]
    have hd := a_decimal_desde ((1 : ℚ) / 3) 10 p (by omega) (by omega) (by norm_num)
    rw [hpf3, Int.cast_zero, sub_zero, fracExpand_third p] at hd
    dsimp only at hd
    rw [List.length_replicate] at hd
    exact hd
  have h10 : (1 : ℚ) ≤ 10 ^ p := one_le_pow₀ (by norm_num)
  have hv2lt : (1 : ℚ) / 3 - ((1 : ℚ) / 3) / 10 ^ p < 1 / 3 := by
    have hlt : (0 : ℚ) < ((1 : ℚ) / 3) / 10 ^ p := by positivity
    linarith
  have hv2nn : (0 : ℚ) ≤ (1 : ℚ) / 3 - ((1 : ℚ) / 3) / 10 ^ p := by
    have hle : ((1 : ℚ) / 3) / 10 ^ p ≤ (1 : ℚ) / 3 := div_le_self (by norm_num) h10
    linarith
  have hbwd : convertir out1 10 3 q =
      .ok (desdeRender ((1 : ℚ) / 3 - ((1 : ℚ) / 3) / 10 ^ p) 3 q) := by
    rw [convertir_eq_general _ 10 3 q (by omega) (by omega) (by decide) (by decide),
      general_ok _ 10 3 q _ (by omega) (by omega) hparse1]
  have hout2 : out2 = desdeRender ((1 : ℚ) / 3 - ((1 : ℚ) / 3) / 10 ^ p) 3 q := by
    rw [h2] at hbwd
    exact Except.ok.inj hbwd
  have hnorm : normalizeZeros ['0', '.', '1'] = ['0', '.', '1'] := by decide
  have hp2 : a_decimal_fraction out2 3 = .ok ((1 : ℚ) / 3) := by
    rw [hcontra, hnorm]
    exact parse_01_ter
  have hp3 := a_decimal_desde ((1 : ℚ) / 3 - ((1 : ℚ) / 3) / 10 ^ p) 3 q
    (by omega) (by omega) hv2nn
  rw [← hout2, hp2] at hp3
  have heq := Except.ok.inj hp3
  have hfb := fract_bounds ((1 : ℚ) / 3 - ((1 : ℚ) / 3) / 10 ^ p)
  have hR := (fracExpand_spec 3 (by omega) q _ hfb.1 hfb.2).2.1
  have hterm : (0 : ℚ) ≤ (fracExpand 3 q (((1 : ℚ) / 3 - ((1 : ℚ) / 3) / 10 ^ p) -
      ((pyfloor ((1 : ℚ) / 3 - ((1 : ℚ) / 3) / 10 ^ p)) : ℚ))).2 /
      (3 : ℚ) ^ (fracExpand 3 q (((1 : ℚ) / 3 - ((1 : ℚ) / 3) / 10 ^ p) -
      ((pyfloor ((1 : ℚ) / 3 - ((1 : ℚ) / 3) / 10 ^ p)) : ℚ))).1.length :=
    div_nonneg hR (by positivity)
  linarith

/-- The unamended C5 is false: the base-3 numeral `"0.1"` (value `1/3`, already
in normalized form) never round-trips through base 10, whatever precisions are
used in the two conversions. Every forward conversion truncates the
non-terminating decimal expansion of `1/3`, so the intermediate numeral denotes
a value strictly below `1/3`, and the backward conversion can only lose more;
the result never parses back to `1/3`, while `"0.1"` does. -/
theorem c5_counterexample :
    a_decimal_fraction ['0', '.', '1'] 3 = .ok ((1 : ℚ) / 3) ∧
    normalizeZeros ['0', '.', '1'] = ['0', '.', '1'] ∧
    ∀ (p q : ℕ) (out1 out2 : List Char),
      convertir ['0', '.', '1'] 3 10 p = .ok out1 →
      convertir out1 10 3 q = .ok out2 →
      out2 ≠ ['0', '.', '1'] := by
  refine ⟨parse_01_ter, by decide, ?_⟩
  intro p q out1 out2 h1 h2 hcontra
  exact no_round_trip_third p q out1 out2 h1 h2 (by rw [hcontra]; decide)
